import Mathlib

/-!
Verification of the Acki-Nacki validator node core against its specification.

The definitions below are shallow embeddings of the Rust sources:
  - `src/node/src/types/block_index.rs` (`BlockIndex` orderings),
  - `src/node/src/types/block_identifier.rs` (`BlockIdentifier` parsing/rendering),
  - `src/node/src/multithreading/load_balancing_service/aggregated_thread_load.rs`,
  - `src/node/src/node/services/attestations_target/service.rs`,
  - `src/node/src/block/producer/process.rs` (`aggregate_acks`),
  - `src/node/src/block/producer/builder/special_messages.rs` (`execute_epoch_messages`).

Machine integers are modelled as `Nat`; where overflow can change behaviour
(the `u16` signature-occurrence counts) the addition is taken modulo `2^16`.
Rust `HashMap`s are modelled as association lists with distinct keys; the map
contents (not the nondeterministic iteration order) are what theorems compare.
-/

namespace AckiNacki

/-! ### `BlockIndex` — src/node/src/types/block_index.rs -/

/-- `BlockIdentifier` (src/node/src/types/block_identifier.rs): a 32-byte digest
(`[u8; 32]`), modelled as its list of bytes. -/
structure BlockIdentifier where
  bytes : List Nat
deriving DecidableEq, Repr

/-- Modelled from the spec: the body of `BlockIdentifier::compare` lives outside
`src/`; the spec fixes the identifier ordering as "Equality, ordering
(lexicographic fallback after seq-no)", i.e. lexicographic comparison of the
32-byte digests. -/
def bytesCompare : List Nat → List Nat → Ordering
  | [], [] => .eq
  | [], _ :: _ => .lt
  | _ :: _, [] => .gt
  | a :: as, b :: bs =>
    match compare a b with
    | .eq => bytesCompare as bs
    | o => o

/-- `BlockIdentifier::compare` (see `bytesCompare`). -/
def BlockIdentifier.compare (a b : BlockIdentifier) : Ordering :=
  bytesCompare a.bytes b.bytes

/-- `BlockIndex` (src/node/src/types/block_index.rs): `(block_seq_no, block_identifier)`.
`BlockSeqNo` is a monotonically increasing unsigned integer, modelled as `Nat`. -/
structure BlockIndex where
  block_seq_no : Nat
  block_identifier : BlockIdentifier
deriving DecidableEq, Repr

/-- `impl PartialOrd for BlockIndex`: compares the `block_seq_no` fields only. -/
def BlockIndex.partial_cmp (a b : BlockIndex) : Option Ordering :=
  some (compare a.block_seq_no b.block_seq_no)

/-- `impl Ord for BlockIndex`: compares `block_seq_no`, breaking ties with
`BlockIdentifier::compare`. -/
def BlockIndex.cmp (a b : BlockIndex) : Ordering :=
  match compare a.block_seq_no b.block_seq_no with
  | .eq => BlockIdentifier.compare a.block_identifier b.block_identifier
  | o => o

/-! ### `AggregatedLoad` — aggregated_thread_load.rs -/

/-- `AggregatedLoad`: ring buffer of `window_size` load samples with an O(1)
aggregate. Each `window` slot holds the `Load` (internal message queue length)
component of the source's `(Load, InThreadAccountsLoad)` pair; the
`InThreadAccountsLoad` component is aggregated by code outside `src/` and is
not consulted by `load_value`. -/
structure AggregatedLoad where
  window : List Nat
  cursor : Nat
  aggregated_value : Nat
  is_filled : Bool
  window_size : Nat
deriving Repr, DecidableEq

/-- `AggregatedLoad::new(window_size)`. -/
def AggregatedLoad.new (window_size : Nat) : AggregatedLoad where
  window := List.replicate window_size 0
  cursor := 0
  aggregated_value := 0
  is_filled := false
  window_size := window_size

/-- `AggregatedLoad::load_value`. -/
def AggregatedLoad.load_value (s : AggregatedLoad) : Nat :=
  s.aggregated_value

/-- `AggregatedLoad::append_from`, with the fresh sample's queue length passed
as an argument (`snapshot_load(block_state)` in the source): advance the
cursor (wrapping, setting `is_filled` on wrap), overwrite the slot under the
new cursor, add the fresh value to the aggregate and subtract the evicted one. -/
def AggregatedLoad.append_from (s : AggregatedLoad) (queue_length : Nat) : AggregatedLoad :=
  let cursor1 := s.cursor + 1
  let wrapped := if cursor1 ≥ s.window_size then (true, 0) else (s.is_filled, cursor1)
  let prev := s.window.getD wrapped.2 0
  { window := s.window.set wrapped.2 queue_length
    cursor := wrapped.2
    aggregated_value := s.aggregated_value + queue_length - prev
    is_filled := wrapped.1
    window_size := s.window_size }

/-- Well-formedness of an `AggregatedLoad` state: the ring buffer has exactly
`window_size` slots, the cursor is in range, and the aggregate equals the sum
of the window slots. -/
def AggregatedLoad.WF (s : AggregatedLoad) : Prop :=
  s.window.length = s.window_size ∧ s.cursor < s.window_size ∧
    s.aggregated_value = s.window.sum

instance (s : AggregatedLoad) : Decidable s.WF := by
  unfold AggregatedLoad.WF; infer_instance

lemma sum_set_add_getD (l : List Nat) (i a : Nat) (h : i < l.length) :
    (l.set i a).sum + l.getD i 0 = l.sum + a := by
  induction l generalizing i with
  | nil => simp at h
  | cons x xs ih =>
    cases i with
    | zero => simp only [List.set, List.sum_cons, List.getD_cons_zero]; omega
    | succ n =>
      simp only [List.set, List.sum_cons, List.getD_cons_succ]
      have := ih n (by simpa using Nat.lt_of_succ_lt_succ h)
      omega

lemma getD_le_sum (l : List Nat) (i : Nat) : l.getD i 0 ≤ l.sum := by
  induction l generalizing i with
  | nil => simp [List.getD]
  | cons x xs ih =>
    cases i with
    | zero => simp only [List.getD_cons_zero, List.sum_cons]; omega
    | succ n =>
      simp only [List.getD_cons_succ, List.sum_cons]
      exact le_trans (ih n) (by omega)

lemma AggregatedLoad.WF.new (ws : Nat) (h : 0 < ws) : (AggregatedLoad.new ws).WF := by
  refine ⟨by simp [AggregatedLoad.new], by simpa [AggregatedLoad.new] using h, ?_⟩
  simp [AggregatedLoad.new]

lemma AggregatedLoad.WF.append (s : AggregatedLoad) (q : Nat) (h : s.WF) :
    (s.append_from q).WF := by
  obtain ⟨hlen, hcur, hsum⟩ := h
  have hws : 0 < s.window_size := by omega
  unfold AggregatedLoad.append_from
  by_cases hwrap : s.cursor + 1 ≥ s.window_size
  · simp only [hwrap, if_pos]
    have h0 : (0 : Nat) < s.window.length := by omega
    refine ⟨by simp [hlen], by simpa using hws, ?_⟩
    simp only
    have hst := sum_set_add_getD s.window 0 q h0
    have hle := getD_le_sum s.window 0
    omega
  · simp only [hwrap, if_neg, not_false_iff]
    have h1 : s.cursor + 1 < s.window.length := by omega
    refine ⟨by simp [hlen], by simpa using (by omega : s.cursor + 1 < s.window_size), ?_⟩
    simp only
    have hst := sum_set_add_getD s.window (s.cursor + 1) q h1
    have hle := getD_le_sum s.window (s.cursor + 1)
    omega

lemma AggregatedLoad.WF.foldl (samples : List Nat) (s : AggregatedLoad) (h : s.WF) :
    (samples.foldl AggregatedLoad.append_from s).WF := by
  induction samples generalizing s with
  | nil => simpa using h
  | cons q rest ih => exact ih _ (h.append s q)

/-! ### Attestation-target service — src/node/src/node/services/attestations_target/service.rs -/

/-- `ThreadIdentifier`: opaque tag, modelled as `Nat`. -/
abbrev ThreadIdentifier := Nat

/-- `SignerIndex` (`u16` in the source): index of a block keeper in a bk-set. -/
abbrev SignerIndex := Nat

/-- Association-list lookup with decidable equality; models `HashMap::get`. -/
def alookup {α β : Type} [DecidableEq α] : List (α × β) → α → Option β
  | [], _ => none
  | p :: ps, k => if p.1 = k then some p.2 else alookup ps k

/-- `AttestationsTarget` (block_state/state.rs, per spec §3):
`{descendant_generations, count}`. -/
structure AttestationsTarget where
  descendant_generations : Nat
  count : Nat
deriving DecidableEq, Repr

/-- `ForkResolution` (fields per spec §4.I; the service only reads `winner()`). -/
structure ForkResolution where
  winner : BlockIdentifier
  losers : List BlockIdentifier
  fork_root : BlockIdentifier
deriving DecidableEq, Repr

/-- The slice of `BlockState` (per-block metadata store; the store itself is
repository code outside `src/`, fields per spec §3) read by the
attestation-target service. `verified_attestations` maps a block id to the set
of verified signer indices (sets modelled as duplicate-free lists);
`has_attestations_target_met` models the accessor of that name. -/
structure BlockState where
  block_identifier : BlockIdentifier
  thread_identifier : Option ThreadIdentifier
  initial_attestations_target : Option AttestationsTarget
  resolves_forks : Option (List ForkResolution)
  verified_attestations : List (BlockIdentifier × List SignerIndex)
  has_attestations_target_met : Bool
deriving DecidableEq, Repr

/-- `BlockState::verified_attestations_for(block_id)`. -/
def BlockState.verified_attestations_for (s : BlockState) (block_id : BlockIdentifier) :
    Option (List SignerIndex) :=
  alookup s.verified_attestations block_id

/-- The payload of `Target::Phantom`: the proposed
`(thread id, attestations map, fork resolutions)` of an about-to-be-produced
block. -/
structure PhantomTarget where
  thread_identifier : ThreadIdentifier
  attestations : List (BlockIdentifier × List SignerIndex)
  fork_resolutions : List ForkResolution
deriving DecidableEq, Repr

/-- `enum Target` of the service. -/
inductive Target where
  | Phantom : PhantomTarget → Target
  | Candidate : BlockState → Target
deriving DecidableEq, Repr

/-- `TargetBlock::thread_identifier`. -/
def Target.thread_identifier : Target → Option ThreadIdentifier
  | .Candidate e => e.thread_identifier
  | .Phantom e => some e.thread_identifier

/-- `TargetBlock::fork_resolutions`. -/
def Target.fork_resolutions : Target → Option (List ForkResolution)
  | .Candidate e => e.resolves_forks
  | .Phantom e => some e.fork_resolutions

/-- `TargetBlock::attestations_for`: for a phantom,
`self.1.get(block_id).cloned().unwrap_or_default()` (always `Some`). -/
def Target.attestations_for : Target → BlockIdentifier → Option (List SignerIndex)
  | .Candidate e, block_id => e.verified_attestations_for block_id
  | .Phantom e, block_id => some ((alookup e.attestations block_id).getD [])

/-- `TargetBlock::has_attestations_target_met`: `false` for a phantom. -/
def Target.has_attestations_target_met : Target → Bool
  | .Candidate e => e.has_attestations_target_met
  | .Phantom _ => false

/-- `enum AttestationsSuccess`. -/
inductive AttestationsSuccess where
  | InitialAttestationsTargetMet
  | SecondaryAttestationsTargetMet
deriving DecidableEq, Repr

/-- `enum AttestationsFailure`. -/
inductive AttestationsFailure where
  | ChainIsTooShort
  | InitialAttestationsTargetIsNotMetResolvesFork
  | NotAllInitialAttestationTargetsSet
  | ThreadIdentifierIsNotSet
  | AttestationsAreNotVerifiedYet
  | ForkResolutionsAreNotSet
  | FailedToSaveBlockState
  | InvalidBlock_TailDoesNotMeetCriteria
deriving DecidableEq, Repr

/-- `AsChain::peek(nth_child)` after the current block has been popped:
for `VecDeque<BlockState>` (`phantom = none`) it is `get(nth_child)`; for
`(VecDeque<BlockState>, Target)` the extra target element sits at index
`len()` (one past the end of the remaining deque). -/
def peekChain : List BlockState → Option Target → Nat → Option Target
  | rest, none, nth_child => (rest.get? nth_child).map Target.Candidate
  | rest, some t, nth_child =>
    if nth_child = rest.length then some t
    else (rest.get? nth_child).map Target.Candidate

/-- `evaluate_block_attestations(block_id, initial_target, min_attestations_count_required)`. -/
def evaluate_block_attestations (block_id : BlockIdentifier) (initial_target : Target)
    (min_attestations_count_required : Nat) :
    Except AttestationsFailure AttestationsSuccess :=
  match initial_target.fork_resolutions with
  | none => .error .ForkResolutionsAreNotSet
  | some fork_resolutions =>
    match initial_target.attestations_for block_id with
    | none => .error .AttestationsAreNotVerifiedYet
    | some block_attestations_signers =>
      if block_attestations_signers.length ≥ min_attestations_count_required then
        .ok .InitialAttestationsTargetMet
      else if fork_resolutions.any (fun e => decide (e.winner = block_id)) then
        if initial_target.has_attestations_target_met then
          .ok .SecondaryAttestationsTargetMet
        else .error .InitialAttestationsTargetIsNotMetResolvesFork
      else .error .InvalidBlock_TailDoesNotMeetCriteria

/-- Result of one `evaluate_attestations` walk: the blocks passed (in walk
order) to `on_initial_attestations_target_met` and to
`on_secondary_attestations_target_met` (the callbacks are modelled as always
succeeding — their only failure, `FailedToSaveBlockState`, comes from
repository code outside `src/`), and the failure that stopped the walk, if
any. -/
structure EvalResult where
  primary : List BlockIdentifier
  secondary : List BlockIdentifier
  failure : Option AttestationsFailure
deriving DecidableEq, Repr

/-- `evaluate_attestations` over a chain (the deque of remaining blocks plus
the optional extra `Target` element of the `(VecDeque<BlockState>, Target)`
chain). `descendant_generations - 1` is a `usize` subtraction; spec invariant 5
guarantees `descendant_generations ≥ 1`, and theorems below assume it where
they mention the value. -/
def evaluate_attestations : List BlockState → Option Target → EvalResult
  | [], _ => ⟨[], [], none⟩
  | block :: rest, phantom =>
    if block.has_attestations_target_met then evaluate_attestations rest phantom
    else
      match block.thread_identifier with
      | none => ⟨[], [], some .ThreadIdentifierIsNotSet⟩
      | some thread_identifier =>
        match block.initial_attestations_target with
        | none => ⟨[], [], some .NotAllInitialAttestationTargetsSet⟩
        | some tgt =>
          match peekChain rest phantom (tgt.descendant_generations - 1) with
          | none => evaluate_attestations rest phantom
          | some checkpoint =>
            match checkpoint.thread_identifier with
            | none => ⟨[], [], some .ThreadIdentifierIsNotSet⟩
            | some checkpoint_thread_identifier =>
              if checkpoint_thread_identifier ≠ thread_identifier then
                evaluate_attestations rest phantom
              else
                match evaluate_block_attestations block.block_identifier checkpoint
                    tgt.count with
                | .ok .InitialAttestationsTargetMet =>
                  let r := evaluate_attestations rest phantom
                  ⟨block.block_identifier :: r.primary, r.secondary, r.failure⟩
                | .ok .SecondaryAttestationsTargetMet =>
                  let r := evaluate_attestations rest phantom
                  ⟨r.primary, block.block_identifier :: r.secondary, r.failure⟩
                | .error .InvalidBlock_TailDoesNotMeetCriteria =>
                  ⟨[], [], some .InvalidBlock_TailDoesNotMeetCriteria⟩
                | .error _ => evaluate_attestations rest phantom

/-- `UnfinalizedAncestorBlocksSelectError` (declared with the repository code
outside `src/`; variants and their payloads per their uses in service.rs and
bin/node.rs, and spec §4.H). -/
inductive UnfinalizedAncestorBlocksSelectError where
  | IncompleteHistory
  | BlockSeqNoCutoff : List BlockState → UnfinalizedAncestorBlocksSelectError
  | InvalidatedParent : List BlockState → UnfinalizedAncestorBlocksSelectError
  | FailedToLoadBlockState
deriving DecidableEq, Repr

/-- Observable outcome of one `evaluate_chain` call: which blocks had
`set_has_initial_attestations_target_met`,
`set_has_attestations_target_met_in_a_resolved_fork_case` and
`set_invalidated` called on them (the `set_*` single-assignment writes are
repository code outside `src/`, modelled as succeeding). -/
structure ChainEvalOutcome where
  primary : List BlockIdentifier
  secondary : List BlockIdentifier
  invalidated : List BlockIdentifier
deriving DecidableEq, Repr

/-- `evaluate_chain(tail, cutoff)`, as a function of the tail block and of the
result of `select_unfinalized_ancestor_blocks(tail, cutoff)` (repository code
outside `src/`, supplied as an argument). -/
def evaluate_chain (tail : BlockState)
    (select_result : Except UnfinalizedAncestorBlocksSelectError (List BlockState)) :
    ChainEvalOutcome :=
  match select_result with
  | .ok chain =>
    let r := evaluate_attestations chain none
    match r.failure with
    | some .InvalidBlock_TailDoesNotMeetCriteria =>
      ⟨r.primary, r.secondary, [tail.block_identifier]⟩
    | _ => ⟨r.primary, r.secondary, []⟩
  | .error .IncompleteHistory => ⟨[], [], []⟩
  | .error (.BlockSeqNoCutoff chain) => ⟨[], [], chain.map BlockState.block_identifier⟩
  | .error (.InvalidatedParent chain) => ⟨[], [], chain.map BlockState.block_identifier⟩
  | .error .FailedToLoadBlockState => ⟨[], [], []⟩

/-- `evaluate_if_next_block_ancestors_required_attestations_will_be_met`, as a
function of the proposed phantom payload and of the result of
`select_unfinalized_ancestor_blocks` (whose error propagates through `?`). -/
def evaluate_if_next_block_ancestors_required_attestations_will_be_met
    (thread_identifier : ThreadIdentifier)
    (next_block_attestations : List (BlockIdentifier × List SignerIndex))
    (fork_resolutions : List ForkResolution)
    (select_result : Except UnfinalizedAncestorBlocksSelectError (List BlockState)) :
    Except UnfinalizedAncestorBlocksSelectError Bool :=
  match select_result with
  | .error e => .error e
  | .ok chain =>
    let r := evaluate_attestations chain
      (some (Target.Phantom ⟨thread_identifier, next_block_attestations, fork_resolutions⟩))
    match r.failure with
    | none => .ok true
    | some .ChainIsTooShort => .ok true
    | some .InitialAttestationsTargetIsNotMetResolvesFork => .ok true
    | some _ => .ok false

/-- The recoverable walk outcomes of the speculative evaluation: success,
`ChainIsTooShort`, or `InitialAttestationsTargetIsNotMetResolvesFork`
(spec wording). -/
def recoverable_walk_outcome : Option AttestationsFailure → Bool
  | none => true
  | some .ChainIsTooShort => true
  | some .InitialAttestationsTargetIsNotMetResolvesFork => true
  | some _ => false

/-- The body of the `evaluate_attestations` loop for the block at the head of
the chain, once `peek` has produced a checkpoint: check the checkpoint's
thread, evaluate the block's attestations against it, record the matching
callback invocation, and otherwise continue with the walk result `r` of the
remaining chain (stopping on `InvalidBlock_TailDoesNotMeetCriteria`). -/
def eval_head_with_checkpoint (block : BlockState) (thread_identifier : ThreadIdentifier)
    (count : Nat) (checkpoint : Target) (r : EvalResult) : EvalResult :=
  match checkpoint.thread_identifier with
  | none => ⟨[], [], some .ThreadIdentifierIsNotSet⟩
  | some checkpoint_thread_identifier =>
    if checkpoint_thread_identifier ≠ thread_identifier then r
    else
      match evaluate_block_attestations block.block_identifier checkpoint count with
      | .ok .InitialAttestationsTargetMet =>
        ⟨block.block_identifier :: r.primary, r.secondary, r.failure⟩
      | .ok .SecondaryAttestationsTargetMet =>
        ⟨r.primary, block.block_identifier :: r.secondary, r.failure⟩
      | .error .InvalidBlock_TailDoesNotMeetCriteria =>
        ⟨[], [], some .InvalidBlock_TailDoesNotMeetCriteria⟩
      | .error _ => r

/-- C3: `evaluate_if_next_block_ancestors_required_attestations_will_be_met`
returns `Ok(true)` exactly when the walk over the ancestor chain extended with
the phantom target succeeds or fails only with `ChainIsTooShort` or
`InitialAttestationsTargetIsNotMetResolvesFork`; every other walk failure
yields `Ok(false)`; a chain-selection error propagates. -/
theorem evaluate_if_next_ok_exactly_on_recoverable_walk
    (thread_identifier : ThreadIdentifier)
    (next_block_attestations : List (BlockIdentifier × List SignerIndex))
    (fork_resolutions : List ForkResolution)
    (chain : List BlockState) (e : UnfinalizedAncestorBlocksSelectError) :
    evaluate_if_next_block_ancestors_required_attestations_will_be_met
        thread_identifier next_block_attestations fork_resolutions (.ok chain)
      = .ok (recoverable_walk_outcome
          (evaluate_attestations chain
            (some (Target.Phantom
              ⟨thread_identifier, next_block_attestations, fork_resolutions⟩))).failure)
    ∧ evaluate_if_next_block_ancestors_required_attestations_will_be_met
        thread_identifier next_block_attestations fork_resolutions (.error e)
      = .error e := by
  constructor
  · show (match (evaluate_attestations chain _).failure with
      | none => (Except.ok true : Except UnfinalizedAncestorBlocksSelectError Bool)
      | some .ChainIsTooShort => .ok true
      | some .InitialAttestationsTargetIsNotMetResolvesFork => .ok true
      | some _ => .ok false) = _
    rcases (evaluate_attestations chain _).failure with _ | f
    · rfl
    · cases f <;> rfl
  · rfl

/-- C5: `evaluate_chain` marks every block of the selected chain invalidated
on `BlockSeqNoCutoff(chain)` and on `InvalidatedParent(chain)`, and is a
no-op (no marking, no invalidation) on `IncompleteHistory` and
`FailedToLoadBlockState`. -/
theorem evaluate_chain_select_error_handling (tail : BlockState)
    (chain1 chain2 : List BlockState) :
    evaluate_chain tail (.error (.BlockSeqNoCutoff chain1))
        = ⟨[], [], chain1.map BlockState.block_identifier⟩
      ∧ evaluate_chain tail (.error (.InvalidatedParent chain2))
        = ⟨[], [], chain2.map BlockState.block_identifier⟩
      ∧ evaluate_chain tail (.error .IncompleteHistory) = ⟨[], [], []⟩
      ∧ evaluate_chain tail (.error .FailedToLoadBlockState) = ⟨[], [], []⟩ :=
  ⟨rfl, rfl, rfl, rfl⟩

/-- C4: when the walk evaluates a block with `descendant_generations = k ≥ 1`,
the checkpoint is the `(k-1)`-th element of the chain remaining after the
block was popped (`k = 1` uses the immediate child); if that index is out of
range the block is skipped without an error and the walk continues. -/
theorem checkpoint_is_kth_remaining_element (block : BlockState)
    (rest : List BlockState) (tid : ThreadIdentifier) (k count : Nat)
    (hmet : block.has_attestations_target_met = false)
    (htid : block.thread_identifier = some tid)
    (htgt : block.initial_attestations_target = some ⟨k, count⟩)
    (hk : 1 ≤ k) :
    (∀ cp, rest.get? (k - 1) = some cp →
      evaluate_attestations (block :: rest) none
        = eval_head_with_checkpoint block tid count (Target.Candidate cp)
            (evaluate_attestations rest none))
    ∧ (rest.get? (k - 1) = none →
      evaluate_attestations (block :: rest) none = evaluate_attestations rest none) := by
  constructor
  · intro cp hcp
    simp only [evaluate_attestations, hmet, Bool.false_eq_true, if_false, htid, htgt,
      peekChain, hcp, Option.map_some]
    rfl
  · intro hcp
    simp only [evaluate_attestations, hmet, Bool.false_eq_true, if_false, htid, htgt,
      peekChain, hcp]
    rfl

/-- A sample ancestor block: unmet, thread 0, target `(2, 1)`. -/
def sampleAncestor : BlockState :=
  ⟨⟨[1]⟩, some 0, some ⟨2, 1⟩, none, [], false⟩

/-- A sample first descendant (already met, so the walk skips it). -/
def sampleChildOne : BlockState :=
  ⟨⟨[2]⟩, some 0, none, none, [], true⟩

/-- A sample second descendant carrying verified attestations for the ancestor. -/
def sampleChildTwo : BlockState :=
  ⟨⟨[3]⟩, some 0, none, some [], [(⟨[1]⟩, [0])], true⟩

/-- Witness for C4 at a concrete input: with `descendant_generations = 2` the
checkpoint is the second remaining element (one block skipped). -/
theorem checkpoint_is_kth_remaining_element_witness :
    evaluate_attestations (sampleAncestor :: [sampleChildOne, sampleChildTwo]) none
      = eval_head_with_checkpoint sampleAncestor 0 1 (Target.Candidate sampleChildTwo)
          (evaluate_attestations [sampleChildOne, sampleChildTwo] none) :=
  (checkpoint_is_kth_remaining_element sampleAncestor [sampleChildOne, sampleChildTwo]
    0 2 1 rfl rfl rfl (by decide)).1 sampleChildTwo rfl

/-- The loop body of `evaluate_attestations` for an unmet head block whose
`peek (descendant_generations - 1)` finds a candidate checkpoint. -/
lemma eval_att_cons_some_checkpoint (block : BlockState) (rest : List BlockState)
    (tid : ThreadIdentifier) (k count : Nat) (cp : BlockState)
    (hmet : block.has_attestations_target_met = false)
    (htid : block.thread_identifier = some tid)
    (htgt : block.initial_attestations_target = some ⟨k, count⟩)
    (hcp : rest.get? (k - 1) = some cp) :
    evaluate_attestations (block :: rest) none
      = eval_head_with_checkpoint block tid count (Target.Candidate cp)
          (evaluate_attestations rest none) := by
  simp only [evaluate_attestations, hmet, Bool.false_eq_true, if_false, htid, htgt,
    peekChain, hcp, Option.map_some]
  rfl

/-- `evaluate_block_attestations` against a candidate checkpoint whose fork
resolutions and verified attestations for the block are present. -/
lemma evaluate_block_attestations_candidate (cp : BlockState)
    (frs : List ForkResolution) (signers : List SignerIndex)
    (bid : BlockIdentifier) (count : Nat)
    (hfrs : cp.resolves_forks = some frs)
    (hsig : cp.verified_attestations_for bid = some signers) :
    evaluate_block_attestations bid (Target.Candidate cp) count
      = if count ≤ signers.length then .ok .InitialAttestationsTargetMet
        else if frs.any (fun e => decide (e.winner = bid)) then
          if cp.has_attestations_target_met then .ok .SecondaryAttestationsTargetMet
          else .error .InitialAttestationsTargetIsNotMetResolvesFork
        else .error .InvalidBlock_TailDoesNotMeetCriteria := by
  simp only [evaluate_block_attestations, Target.fork_resolutions, hfrs,
    Target.attestations_for, hsig, ge_iff_le, Target.has_attestations_target_met]

/-- C2 counterexample: an ancestor with 2 verified attestations against a
required count of 3, named winner by the checkpoint's fork resolutions while
the checkpoint's own target is not met. -/
def cexAncestor : BlockState :=
  ⟨⟨[1]⟩, some 0, some ⟨1, 3⟩, none, [], false⟩

/-- C2 counterexample checkpoint: resolves the fork in favour of `⟨[1]⟩`,
carries two verified attestation signers for it, own target not met. -/
def cexCheckpoint : BlockState :=
  ⟨⟨[2]⟩, some 0, some ⟨1, 0⟩, some [⟨⟨[1]⟩, [], ⟨[1]⟩⟩], [(⟨[1]⟩, [0, 1])], false⟩

/-- C2 counterexample: under the claim's conditions (attestation set below the
required count, fork resolutions naming the block winner, checkpoint target
not met) the evaluation reports the recoverable
`InitialAttestationsTargetIsNotMetResolvesFork`, not
`InvalidBlock_TailDoesNotMeetCriteria`, and `evaluate_chain` invalidates
nothing — contradicting the claim's final "otherwise B is invalid" clause. -/
theorem evaluate_block_attestations_not_invalid_on_unmet_fork_winner :
    cexCheckpoint.verified_attestations_for ⟨[1]⟩ = some [0, 1]
    ∧ (cexCheckpoint.resolves_forks.getD []).any
        (fun e => decide (e.winner = (⟨[1]⟩ : BlockIdentifier))) = true
    ∧ cexCheckpoint.has_attestations_target_met = false
    ∧ evaluate_block_attestations ⟨[1]⟩ (Target.Candidate cexCheckpoint) 3
      = .error .InitialAttestationsTargetIsNotMetResolvesFork
    ∧ evaluate_chain cexCheckpoint (.ok [cexAncestor, cexCheckpoint]) = ⟨[], [], []⟩ :=
  ⟨rfl, rfl, rfl, rfl, rfl⟩

/-- C2 (amended): for an ancestor block evaluated against an in-thread
checkpoint whose fork resolutions and verified attestations for the block are
present: at least `count` signers marks the block
`has_initial_attestations_target_met`; otherwise, winner-naming fork
resolutions plus a met checkpoint target marks it
`has_attestations_target_met_in_a_resolved_fork_case`; otherwise,
winner-naming fork resolutions with an unmet checkpoint target skip the block
(recoverable, nothing marked or invalidated); otherwise the walk stops with
`InvalidBlock_TailDoesNotMeetCriteria` and `evaluate_chain` marks the tail
invalidated. -/
theorem evaluate_ancestor_attestations_cases (block cp : BlockState)
    (rest : List BlockState) (tid : ThreadIdentifier) (k count : Nat)
    (frs : List ForkResolution) (signers : List SignerIndex) (tail : BlockState)
    (hmet : block.has_attestations_target_met = false)
    (htid : block.thread_identifier = some tid)
    (htgt : block.initial_attestations_target = some ⟨k, count⟩)
    (hcp : rest.get? (k - 1) = some cp)
    (hcptid : cp.thread_identifier = some tid)
    (hfrs : cp.resolves_forks = some frs)
    (hsig : cp.verified_attestations_for block.block_identifier = some signers) :
    (count ≤ signers.length →
      evaluate_attestations (block :: rest) none
        = ⟨block.block_identifier :: (evaluate_attestations rest none).primary,
           (evaluate_attestations rest none).secondary,
           (evaluate_attestations rest none).failure⟩)
    ∧ (signers.length < count →
        frs.any (fun e => decide (e.winner = block.block_identifier)) = true →
        cp.has_attestations_target_met = true →
        evaluate_attestations (block :: rest) none
          = ⟨(evaluate_attestations rest none).primary,
             block.block_identifier :: (evaluate_attestations rest none).secondary,
             (evaluate_attestations rest none).failure⟩)
    ∧ (signers.length < count →
        frs.any (fun e => decide (e.winner = block.block_identifier)) = true →
        cp.has_attestations_target_met = false →
        evaluate_attestations (block :: rest) none = evaluate_attestations rest none)
    ∧ (signers.length < count →
        frs.any (fun e => decide (e.winner = block.block_identifier)) = false →
        evaluate_attestations (block :: rest) none
            = ⟨[], [], some .InvalidBlock_TailDoesNotMeetCriteria⟩
          ∧ evaluate_chain tail (.ok (block :: rest))
            = ⟨[], [], [tail.block_identifier]⟩) := by
  have hstep := eval_att_cons_some_checkpoint block rest tid k count cp hmet htid htgt hcp
  have hblk := evaluate_block_attestations_candidate cp frs signers
    block.block_identifier count hfrs hsig
  refine ⟨?_, ?_, ?_, ?_⟩
  · intro hge
    rw [hstep]
    unfold eval_head_with_checkpoint
    simp only [Target.thread_identifier, hcptid, ne_eq, not_true_eq_false, if_false, hblk,
      if_pos hge]
  · intro hlt hwin hcpm
    rw [hstep]
    unfold eval_head_with_checkpoint
    simp only [Target.thread_identifier, hcptid, ne_eq, not_true_eq_false, if_false, hblk,
      if_neg (by omega : ¬ count ≤ signers.length), hwin, if_true, hcpm]
  · intro hlt hwin hcpm
    rw [hstep]
    unfold eval_head_with_checkpoint
    simp only [Target.thread_identifier, hcptid, ne_eq, not_true_eq_false, if_false, hblk,
      if_neg (by omega : ¬ count ≤ signers.length), hwin, if_true, hcpm, Bool.false_eq_true]
  · intro hlt hwin
    have hfail : evaluate_attestations (block :: rest) none
        = ⟨[], [], some .InvalidBlock_TailDoesNotMeetCriteria⟩ := by
      rw [hstep]
      unfold eval_head_with_checkpoint
      simp only [Target.thread_identifier, hcptid, ne_eq, not_true_eq_false, if_false, hblk,
        if_neg (by omega : ¬ count ≤ signers.length), hwin, Bool.false_eq_true, if_false]
    refine ⟨hfail, ?_⟩
    unfold evaluate_chain
    dsimp only
    rw [hfail]

/-- Witness for C2 (amended) at a concrete input: three verified signers meet
the required count of 2, so the ancestor is marked
`has_initial_attestations_target_met`. -/
theorem evaluate_ancestor_attestations_cases_witness :
    evaluate_attestations
        ((⟨⟨[9]⟩, some 0, some ⟨1, 2⟩, none, [], false⟩ : BlockState)
          :: [⟨⟨[2]⟩, some 0, some ⟨1, 0⟩, some [], [(⟨[9]⟩, [0, 1, 2])], false⟩]) none
      = ⟨[⟨[9]⟩], [], none⟩ := by
  have h := (evaluate_ancestor_attestations_cases
    ⟨⟨[9]⟩, some 0, some ⟨1, 2⟩, none, [], false⟩
    ⟨⟨[2]⟩, some 0, some ⟨1, 0⟩, some [], [(⟨[9]⟩, [0, 1, 2])], false⟩
    [⟨⟨[2]⟩, some 0, some ⟨1, 0⟩, some [], [(⟨[9]⟩, [0, 1, 2])], false⟩]
    0 1 2 [] [0, 1, 2] ⟨⟨[2]⟩, some 0, some ⟨1, 0⟩, some [], [(⟨[9]⟩, [0, 1, 2])], false⟩
    rfl rfl rfl rfl rfl rfl rfl).1 (by decide)
  rw [h]
  decide

/-- C8: after any sequence of `append_from` calls on a fresh `AggregatedLoad`
with a positive window size, `load_value()` equals the sum of the first
components of all window slots. -/
theorem aggregatedLoad_load_value_eq_window_sum (ws : Nat) (hws : 0 < ws)
    (samples : List Nat) :
    (samples.foldl AggregatedLoad.append_from (AggregatedLoad.new ws)).load_value
      = (samples.foldl AggregatedLoad.append_from (AggregatedLoad.new ws)).window.sum :=
  (AggregatedLoad.WF.foldl samples _ (AggregatedLoad.WF.new ws hws)).2.2

/-- Witness for C8 at a concrete input. -/
theorem aggregatedLoad_load_value_eq_window_sum_witness :
    (0 : Nat) < 3
    ∧ (([5, 7, 2, 9] : List Nat).foldl AggregatedLoad.append_from
          (AggregatedLoad.new 3)).load_value
      = (([5, 7, 2, 9] : List Nat).foldl AggregatedLoad.append_from
          (AggregatedLoad.new 3)).window.sum :=
  ⟨by decide, aggregatedLoad_load_value_eq_window_sum 3 (by decide) [5, 7, 2, 9]⟩

/-! ### Ack aggregation — src/node/src/block/producer/process.rs -/

/-- Aggregated BLS signatures, kept opaque: a free structure recording
`GoshBLS::merge` applications (the BLS scheme itself is outside the scope of
the aggregation claims). -/
inductive Signature where
  | base : Nat → Signature
  | merge : Signature → Signature → Signature
deriving DecidableEq, Repr

/-- `AckData`: the block id the acknowledgement refers to. -/
structure AckData where
  block_id : BlockIdentifier
deriving DecidableEq, Repr

/-- `Envelope<GoshBLS, AckData>`: aggregated signature, signer-occurrence
counts (`HashMap<SignerIndex, u16>`, modelled as an association list with
distinct keys holding the `u16` values), and the ack data. -/
structure Envelope where
  aggregated_signature : Signature
  signature_occurrences : List (SignerIndex × Nat)
  data : AckData
deriving DecidableEq, Repr

/-- `HashMap::insert` on an association list: update the key in place when
present, append otherwise. -/
def hmInsert {α β : Type} [DecidableEq α] (m : List (α × β)) (k : α) (v : β) :
    List (α × β) :=
  if (alookup m k).isSome then m.map (fun p => if p.1 = k then (k, v) else p)
  else m ++ [(k, v)]

/-- `map.get(k).copied().unwrap_or(0)`: the occurrence count of a signer. -/
def occOf (m : List (SignerIndex × Nat)) (k : SignerIndex) : Nat :=
  (alookup m k).getD 0

/-- The occurrence-map merge inside `aggregate_acks`'s `and_modify` closure:
for each incoming signer index,
`new_count = merged.get(k).unwrap_or(0) + incoming[k]` (`u16` addition, taken
modulo `2^16`), inserted into the merged map; finally
`retain(|_, count| *count > 0)`. -/
def merge_signature_occurrences (agg inc : List (SignerIndex × Nat)) :
    List (SignerIndex × Nat) :=
  (inc.foldl (fun m kc => hmInsert m kc.1 ((occOf m kc.1 + kc.2) % 65536)) agg).filter
    (fun kc => decide (0 < kc.2))

/-- The `and_modify` closure of `aggregate_acks`: merge the incoming
occurrences; if the merge added new signer indices
(`merged.len() > initial_signatures_count`) rebuild the envelope with the
BLS-merged signature, otherwise keep the prior aggregated envelope. -/
def ackAndModify (aggregated_ack ack : Envelope) : Envelope :=
  let initial_signatures_count := aggregated_ack.signature_occurrences.length
  let merged := merge_signature_occurrences aggregated_ack.signature_occurrences
    ack.signature_occurrences
  if initial_signatures_count < merged.length then
    { aggregated_signature := Signature.merge aggregated_ack.aggregated_signature
        ack.aggregated_signature
      signature_occurrences := merged
      data := aggregated_ack.data }
  else aggregated_ack

/-- `aggregate_acks`: fold the received acks into one envelope per block id
(`HashMap<BlockIdentifier, Envelope>` via the entry API, modelled as an
association list in first-seen key order; the source finally returns the
map's values). -/
def aggregate_acks (received_acks : List Envelope) : List (BlockIdentifier × Envelope) :=
  received_acks.foldl
    (fun aggregated_acks ack =>
      if (alookup aggregated_acks ack.data.block_id).isSome then
        aggregated_acks.map (fun p =>
          if p.1 = ack.data.block_id then (p.1, ackAndModify p.2 ack) else p)
      else aggregated_acks ++ [(ack.data.block_id, ack)])
    []

/-- Pruning zero counts from an envelope (the claim compares aggregation
results "after pruning zero counts"). -/
def pruneEnvelope (e : Envelope) : Envelope :=
  { e with signature_occurrences :=
      e.signature_occurrences.filter (fun kc => decide (0 < kc.2)) }

/-- Pruning zero counts from every aggregated envelope. -/
def postPrune (m : List (BlockIdentifier × Envelope)) : List (BlockIdentifier × Envelope) :=
  m.map (fun p => (p.1, pruneEnvelope p.2))

/-- Keys of an association list. -/
def keysOf {α β : Type} (m : List (α × β)) : List α := m.map Prod.fst

lemma keysOf_nil {α β : Type} : keysOf ([] : List (α × β)) = [] := rfl

lemma keysOf_cons {α β : Type} (p : α × β) (ps : List (α × β)) :
    keysOf (p :: ps) = p.1 :: keysOf ps := rfl

lemma keysOf_append {α β : Type} (m l : List (α × β)) :
    keysOf (m ++ l) = keysOf m ++ keysOf l := by
  simp [keysOf]

lemma alookup_isSome_iff {α β : Type} [DecidableEq α] (m : List (α × β)) (k : α) :
    (alookup m k).isSome ↔ k ∈ keysOf m := by
  induction m with
  | nil => simp [alookup, keysOf]
  | cons p ps ih =>
    by_cases h : p.1 = k
    · simp [alookup, keysOf, h]
    · simp [alookup, keysOf, h, ih, Ne.symm h]

lemma alookup_eq_none_iff {α β : Type} [DecidableEq α] (m : List (α × β)) (k : α) :
    alookup m k = none ↔ k ∉ keysOf m := by
  rw [← alookup_isSome_iff]
  cases alookup m k <;> simp

lemma alookup_cons_self {α β : Type} [DecidableEq α] (k : α) (v : β)
    (ps : List (α × β)) : alookup ((k, v) :: ps) k = some v := by
  simp [alookup]

lemma alookup_cons_ne {α β : Type} [DecidableEq α] (p : α × β) (ps : List (α × β))
    (k : α) (h : p.1 ≠ k) : alookup (p :: ps) k = alookup ps k := by
  simp [alookup, h]

lemma mem_of_alookup_eq_some {α β : Type} [DecidableEq α] (m : List (α × β)) (k : α)
    (v : β) (h : alookup m k = some v) : (k, v) ∈ m := by
  induction m with
  | nil => simp [alookup] at h
  | cons p ps ih =>
    cases p with
    | mk a v0 =>
      by_cases hk : a = k
      · subst hk
        simp [alookup] at h
        subst h
        exact List.mem_cons_self _ _
      · rw [alookup_cons_ne _ _ _ hk] at h
        exact List.mem_cons_of_mem _ (ih h)

lemma alookup_eq_some_of_mem_nodup {α β : Type} [DecidableEq α] (m : List (α × β))
    (hN : (keysOf m).Nodup) (k : α) (v : β) (h : (k, v) ∈ m) : alookup m k = some v := by
  induction m with
  | nil => simp at h
  | cons p ps ih =>
    rw [keysOf_cons, List.nodup_cons] at hN
    rcases List.mem_cons.mp h with h1 | h1
    · cases h1
      simp [alookup]
    · have hk : p.1 ≠ k := by
        intro hk
        exact hN.1 (hk ▸ List.mem_map_of_mem Prod.fst h1)
      rw [alookup_cons_ne _ _ _ hk]
      exact ih hN.2 h1

lemma alookup_append {α β : Type} [DecidableEq α] (m l : List (α × β)) (k : α) :
    alookup (m ++ l) k = ((alookup m k).rec (alookup l k) (fun v => some v)) := by
  induction m with
  | nil => simp [alookup]
  | cons p ps ih =>
    by_cases h : p.1 = k
    · simp [alookup, h]
    · simpa [alookup, h] using ih

lemma alookup_map_update {α β : Type} [DecidableEq α] (m : List (α × β)) (b : α)
    (f : α × β → β) (k : α) :
    alookup (m.map (fun p => if p.1 = b then (p.1, f p) else p)) k
      = if k = b then (alookup m k).map (fun v => f (b, v)) else alookup m k := by
  induction m with
  | nil => by_cases h : k = b <;> simp [alookup, h]
  | cons p ps ih =>
    cases p with
    | mk a v0 =>
      by_cases hab : a = b <;> by_cases hak : a = k
      · subst hab; subst hak
        simp [alookup]
      · subst hab
        have hkb : ¬ k = a := fun h => hak h.symm
        simp only [List.map_cons, if_pos rfl]
        rw [alookup_cons_ne _ _ _ hak, alookup_cons_ne _ _ _ hak, ih]
      · subst hak
        have hkb : ¬ a = b := hab
        simp only [List.map_cons, if_neg hab]
        rw [alookup_cons_self, alookup_cons_self]
      · simp only [List.map_cons, if_neg hab]
        rw [alookup_cons_ne _ _ _ hak, alookup_cons_ne _ _ _ hak, ih]

lemma keysOf_map_update {α β : Type} [DecidableEq α] (m : List (α × β)) (b : α)
    (f : α × β → β) :
    keysOf (m.map (fun p => if p.1 = b then (p.1, f p) else p)) = keysOf m := by
  induction m with
  | nil => rfl
  | cons p ps ih =>
    by_cases hpb : p.1 = b
    · simp only [List.map_cons, if_pos hpb, keysOf_cons, ih]
    · simp only [List.map_cons, if_neg hpb, keysOf_cons, ih]

lemma map_update_eq_self {α β : Type} [DecidableEq α] (m : List (α × β)) (b : α)
    (f : α × β → β) (h : ∀ p ∈ m, p.1 = b → f p = p.2) :
    m.map (fun p => if p.1 = b then (p.1, f p) else p) = m := by
  induction m with
  | nil => rfl
  | cons p ps ih =>
    have hrec := ih (fun q hq => h q (List.mem_cons_of_mem _ hq))
    by_cases hpb : p.1 = b
    · have hfp := h p (List.mem_cons_self _ _) hpb
      simp only [List.map_cons, if_pos hpb, hfp, hrec, List.cons.injEq]
    · simp only [List.map_cons, if_neg hpb, hrec]

/-- One step of the `aggregate_acks` fold (the body of the `for ack in
&received_acks` loop). -/
def aggregate_acks_step (aggregated_acks : List (BlockIdentifier × Envelope))
    (ack : Envelope) : List (BlockIdentifier × Envelope) :=
  if (alookup aggregated_acks ack.data.block_id).isSome then
    aggregated_acks.map (fun p =>
      if p.1 = ack.data.block_id then (p.1, ackAndModify p.2 ack) else p)
  else aggregated_acks ++ [(ack.data.block_id, ack)]

lemma aggregate_acks_eq_foldl (received_acks : List Envelope) :
    aggregate_acks received_acks = received_acks.foldl aggregate_acks_step [] := rfl

lemma keysOf_aggregate_step (m : List (BlockIdentifier × Envelope)) (ack : Envelope) :
    keysOf (aggregate_acks_step m ack)
      = if ack.data.block_id ∈ keysOf m then keysOf m
        else keysOf m ++ [ack.data.block_id] := by
  unfold aggregate_acks_step
  by_cases h : ack.data.block_id ∈ keysOf m
  · rw [if_pos ((alookup_isSome_iff m _).mpr h), if_pos h, keysOf_map_update]
  · rw [if_neg (by rw [alookup_isSome_iff]; exact h), if_neg h, keysOf_append]
    rfl

lemma aggregate_acks_keys_aux (received : List Envelope)
    (m : List (BlockIdentifier × Envelope)) (hN : (keysOf m).Nodup) :
    (keysOf (received.foldl aggregate_acks_step m)).Nodup
    ∧ ∀ b, b ∈ keysOf (received.foldl aggregate_acks_step m)
        ↔ b ∈ keysOf m ∨ b ∈ received.map (fun e => e.data.block_id) := by
  induction received generalizing m with
  | nil => simp [hN]
  | cons e rest ih =>
    have hkeys := keysOf_aggregate_step m e
    by_cases h : e.data.block_id ∈ keysOf m
    · rw [if_pos h] at hkeys
      have hrec := ih (aggregate_acks_step m e) (hkeys ▸ hN)
      refine ⟨hrec.1, fun b => ?_⟩
      rw [List.foldl_cons] at *
      rw [hrec.2 b, hkeys]
      simp only [List.map_cons, List.mem_cons]
      constructor
      · rintro (hb | hb)
        · exact Or.inl hb
        · exact Or.inr (Or.inr hb)
      · rintro (hb | hb | hb)
        · exact Or.inl hb
        · exact Or.inl (hb ▸ h)
        · exact Or.inr hb
    · rw [if_neg h] at hkeys
      have hN2 : (keysOf (aggregate_acks_step m e)).Nodup := by
        rw [hkeys]
        simpa [List.nodup_append] using ⟨hN, h⟩
      have hrec := ih (aggregate_acks_step m e) hN2
      refine ⟨hrec.1, fun b => ?_⟩
      rw [List.foldl_cons] at *
      rw [hrec.2 b, hkeys]
      simp only [List.mem_append, List.mem_singleton, List.map_cons, List.mem_cons]
      tauto

/-- C6: ack aggregation groups the received envelopes into exactly one
envelope per block id (the aggregated map's keys are duplicate-free and are
exactly the received block ids); two envelopes for the same block id with
disjoint signer sets `{0,1}` and `{2,3}` produce a single envelope with
occurrences `{0:1, 1:1, 2:1, 3:1}` and the BLS-merged signature; an envelope
whose signers were all already counted leaves the prior envelope unchanged
(no re-merge). -/
theorem aggregate_acks_one_envelope_per_block_id :
    (∀ received : List Envelope,
      (keysOf (aggregate_acks received)).Nodup
      ∧ ∀ b, b ∈ keysOf (aggregate_acks received)
          ↔ b ∈ received.map (fun e => e.data.block_id))
    ∧ aggregate_acks [⟨.base 1, [(0, 1), (1, 1)], ⟨⟨[7]⟩⟩⟩,
          ⟨.base 2, [(2, 1), (3, 1)], ⟨⟨[7]⟩⟩⟩]
        = [(⟨[7]⟩, ⟨.merge (.base 1) (.base 2),
            [(0, 1), (1, 1), (2, 1), (3, 1)], ⟨⟨[7]⟩⟩⟩)]
    ∧ aggregate_acks [⟨.base 1, [(0, 1), (1, 1)], ⟨⟨[7]⟩⟩⟩,
          ⟨.base 3, [(0, 1), (1, 1)], ⟨⟨[7]⟩⟩⟩]
        = [(⟨[7]⟩, ⟨.base 1, [(0, 1), (1, 1)], ⟨⟨[7]⟩⟩⟩)] := by
  refine ⟨fun received => ?_, by decide, by decide⟩
  have h := aggregate_acks_keys_aux received [] (by simp [keysOf])
  rw [aggregate_acks_eq_foldl]
  exact ⟨h.1, fun b => by simpa [keysOf] using h.2 b⟩

lemma keysOf_map_insert_shape {α β : Type} [DecidableEq α] (m : List (α × β)) (k : α)
    (v : β) :
    keysOf (m.map (fun p => if p.1 = k then (k, v) else p)) = keysOf m := by
  induction m with
  | nil => rfl
  | cons p ps ih =>
    by_cases hpk : p.1 = k
    · rw [List.map_cons, if_pos hpk, keysOf_cons, keysOf_cons, ih, hpk]
    · rw [List.map_cons, if_neg hpk, keysOf_cons, keysOf_cons, ih]

lemma alookup_map_insert_shape {α β : Type} [DecidableEq α] (m : List (α × β)) (k : α)
    (v : β) (k2 : α) (h : k2 ≠ k) :
    alookup (m.map (fun p => if p.1 = k then (k, v) else p)) k2 = alookup m k2 := by
  induction m with
  | nil => rfl
  | cons p ps ih =>
    by_cases hpk : p.1 = k
    · rw [List.map_cons, if_pos hpk]
      rw [alookup_cons_ne _ _ _ (fun hh => h hh.symm), alookup_cons_ne, ih]
      rw [hpk]
      exact fun hh => h hh.symm
    · rw [List.map_cons, if_neg hpk]
      by_cases hpk2 : p.1 = k2
      · cases p with
        | mk a v0 =>
          subst hpk2
          rw [alookup_cons_self, alookup_cons_self]
      · rw [alookup_cons_ne _ _ _ hpk2, alookup_cons_ne _ _ _ hpk2, ih]

lemma keysOf_hmInsert {α β : Type} [DecidableEq α] (m : List (α × β)) (k : α) (v : β) :
    keysOf (hmInsert m k v)
      = if k ∈ keysOf m then keysOf m else keysOf m ++ [k] := by
  unfold hmInsert
  by_cases h : k ∈ keysOf m
  · rw [if_pos ((alookup_isSome_iff m k).mpr h), if_pos h, keysOf_map_insert_shape]
  · rw [if_neg (by rw [alookup_isSome_iff]; exact h), if_neg h, keysOf_append]
    rfl

lemma nodup_keysOf_hmInsert {α β : Type} [DecidableEq α] (m : List (α × β)) (k : α)
    (v : β) (hN : (keysOf m).Nodup) : (keysOf (hmInsert m k v)).Nodup := by
  rw [keysOf_hmInsert]
  by_cases h : k ∈ keysOf m
  · rwa [if_pos h]
  · rw [if_neg h]
    simp [List.nodup_append, hN, h]

lemma length_hmInsert {α β : Type} [DecidableEq α] (m : List (α × β)) (k : α) (v : β) :
    (hmInsert m k v).length
      = if k ∈ keysOf m then m.length else m.length + 1 := by
  unfold hmInsert
  by_cases h : k ∈ keysOf m
  · rw [if_pos ((alookup_isSome_iff m k).mpr h), if_pos h, List.length_map]
  · rw [if_neg (by rw [alookup_isSome_iff]; exact h), if_neg h, List.length_append]
    rfl

lemma mem_hmInsert {α β : Type} [DecidableEq α] (m : List (α × β)) (k : α) (v : β)
    (p : α × β) (hp : p ∈ hmInsert m k v) : p = (k, v) ∨ p ∈ m := by
  unfold hmInsert at hp
  by_cases h : (alookup m k).isSome
  · rw [if_pos h] at hp
    obtain ⟨q, hq, hqp⟩ := List.mem_map.mp hp
    by_cases hqk : q.1 = k
    · rw [if_pos hqk] at hqp
      exact Or.inl hqp.symm
    · rw [if_neg hqk] at hqp
      exact Or.inr (hqp ▸ hq)
  · rw [if_neg h] at hp
    rcases List.mem_append.mp hp with h1 | h1
    · exact Or.inr h1
    · exact Or.inl (List.mem_singleton.mp h1)

lemma alookup_hmInsert_self {α β : Type} [DecidableEq α] (m : List (α × β)) (k : α)
    (v : β) : alookup (hmInsert m k v) k = some v := by
  unfold hmInsert
  by_cases h : (alookup m k).isSome
  · rw [if_pos h]
    induction m with
    | nil => simp [alookup] at h
    | cons p ps ih =>
      by_cases hpk : p.1 = k
      · rw [List.map_cons, if_pos hpk, alookup_cons_self]
      · rw [List.map_cons, if_neg hpk, alookup_cons_ne _ _ _ hpk]
        rw [alookup_cons_ne _ _ _ hpk] at h
        exact ih h
  · rw [if_neg h, alookup_append]
    have hnone : alookup m k = none := by
      cases hm : alookup m k
      · rfl
      · rw [hm] at h; simp at h
    rw [hnone]
    exact alookup_cons_self k v []

lemma alookup_hmInsert_ne {α β : Type} [DecidableEq α] (m : List (α × β)) (k : α)
    (v : β) (k2 : α) (h : k2 ≠ k) : alookup (hmInsert m k v) k2 = alookup m k2 := by
  unfold hmInsert
  by_cases hs : (alookup m k).isSome
  · rw [if_pos hs, alookup_map_insert_shape _ _ _ _ h]
  · rw [if_neg hs, alookup_append]
    cases hm : alookup m k2
    · rw [alookup_cons_ne _ _ _ (fun hh => h hh.symm)]
      rfl
    · rfl

/-- The fold inside `merge_signature_occurrences`, before the zero-prune. -/
def merge_fold (agg inc : List (SignerIndex × Nat)) : List (SignerIndex × Nat) :=
  inc.foldl (fun m kc => hmInsert m kc.1 ((occOf m kc.1 + kc.2) % 65536)) agg

lemma merge_signature_occurrences_eq_fold (agg inc : List (SignerIndex × Nat)) :
    merge_signature_occurrences agg inc
      = (merge_fold agg inc).filter (fun kc => decide (0 < kc.2)) := rfl

lemma occOf_cons_self (k c : Nat) (rest : List (SignerIndex × Nat)) :
    occOf ((k, c) :: rest) k = c := by
  rw [occOf, alookup_cons_self]
  rfl

lemma occOf_cons_ne (p : SignerIndex × Nat) (rest : List (SignerIndex × Nat)) (k : Nat)
    (h : p.1 ≠ k) : occOf (p :: rest) k = occOf rest k := by
  rw [occOf, alookup_cons_ne _ _ _ h]
  rfl

lemma occOf_eq_zero_of_not_mem (m : List (SignerIndex × Nat)) (k : Nat)
    (h : k ∉ keysOf m) : occOf m k = 0 := by
  rw [occOf, (alookup_eq_none_iff m k).mpr h]
  rfl

lemma merge_fold_props (inc : List (SignerIndex × Nat)) :
    ∀ (agg : List (SignerIndex × Nat)),
    (keysOf agg).Nodup → (∀ kc ∈ agg, 0 < kc.2) →
    (keysOf inc).Nodup → (∀ kc ∈ inc, 0 < kc.2) →
    (∀ kc ∈ inc, occOf agg kc.1 + kc.2 < 65536) →
    (keysOf (merge_fold agg inc)).Nodup
    ∧ (∀ kc ∈ merge_fold agg inc, 0 < kc.2)
    ∧ (∀ k, occOf (merge_fold agg inc) k = occOf agg k + occOf inc k)
    ∧ (∀ k, k ∈ keysOf (merge_fold agg inc) ↔ k ∈ keysOf agg ∨ k ∈ keysOf inc)
    ∧ (merge_fold agg inc).length
        = agg.length + (inc.filter (fun kc => decide (kc.1 ∉ keysOf agg))).length := by
  induction inc with
  | nil =>
    intro agg haggN haggP _ _ _
    refine ⟨haggN, haggP, ?_, ?_, ?_⟩
    · intro k
      have : occOf [] k = 0 := rfl
      simp [merge_fold, this]
    · intro k
      simp [merge_fold, keysOf]
    · simp [merge_fold]
  | cons kc rest ih =>
    intro agg haggN haggP hincN hincP hb
    obtain ⟨k0, c0⟩ := kc
    have hc0 : 0 < c0 := hincP (k0, c0) (List.mem_cons_self _ _)
    have hb0 : occOf agg k0 + c0 < 65536 := hb (k0, c0) (List.mem_cons_self _ _)
    have hmod : (occOf agg k0 + c0) % 65536 = occOf agg k0 + c0 := Nat.mod_eq_of_lt hb0
    have hrestN : (keysOf rest).Nodup := by
      rw [keysOf_cons, List.nodup_cons] at hincN
      exact hincN.2
    have hk0rest : k0 ∉ keysOf rest := by
      rw [keysOf_cons, List.nodup_cons] at hincN
      exact hincN.1
    have hfold : merge_fold agg ((k0, c0) :: rest)
        = merge_fold (hmInsert agg k0 ((occOf agg k0 + c0) % 65536)) rest := rfl
    set m1 := hmInsert agg k0 ((occOf agg k0 + c0) % 65536) with hm1
    have hm1N : (keysOf m1).Nodup := nodup_keysOf_hmInsert _ _ _ haggN
    have hm1P : ∀ p ∈ m1, 0 < p.2 := by
      intro p hp
      rcases mem_hmInsert _ _ _ _ hp with h1 | h1
      · rw [h1, hmod]
        exact Nat.lt_of_lt_of_le hc0 (by omega)
      · exact haggP p h1
    have hocc1self : occOf m1 k0 = occOf agg k0 + c0 := by
      rw [occOf, alookup_hmInsert_self, Option.getD_some, hmod]
    have hocc1ne : ∀ k, k ≠ k0 → occOf m1 k = occOf agg k := by
      intro k hk
      rw [occOf, alookup_hmInsert_ne _ _ _ _ hk, occOf]
    have hkeys1 : ∀ k, k ∈ keysOf m1 ↔ k ∈ keysOf agg ∨ k = k0 := by
      intro k
      rw [hm1, keysOf_hmInsert]
      by_cases h : k0 ∈ keysOf agg
      · rw [if_pos h]
        constructor
        · exact fun hh => Or.inl hh
        · rintro (hh | hh)
          · exact hh
          · exact hh ▸ h
      · rw [if_neg h]
        simp
    have hrestb : ∀ kc2 ∈ rest, occOf m1 kc2.1 + kc2.2 < 65536 := by
      intro kc2 hkc2
      have hne : kc2.1 ≠ k0 := by
        intro hh
        exact hk0rest (hh ▸ List.mem_map_of_mem Prod.fst hkc2)
      rw [hocc1ne _ hne]
      exact hb kc2 (List.mem_cons_of_mem _ hkc2)
    have hrestP : ∀ kc2 ∈ rest, 0 < kc2.2 :=
      fun kc2 hkc2 => hincP kc2 (List.mem_cons_of_mem _ hkc2)
    obtain ⟨hN, hP, hocc, hkeys, hlen⟩ := ih m1 hm1N hm1P hrestN hrestP hrestb
    rw [hfold]
    refine ⟨hN, hP, ?_, ?_, ?_⟩
    · intro k
      rw [hocc k]
      by_cases hk : k = k0
      · subst hk
        rw [hocc1self, occOf_eq_zero_of_not_mem rest k hk0rest, occOf_cons_self]
        omega
      · rw [hocc1ne _ hk, occOf_cons_ne _ _ _ (fun hh => hk hh.symm)]
    · intro k
      rw [hkeys k, hkeys1 k, keysOf_cons, List.mem_cons]
      tauto
    · rw [hlen]
      have hfc : rest.filter (fun kc => decide (kc.1 ∉ keysOf m1))
          = rest.filter (fun kc => decide (kc.1 ∉ keysOf agg)) := by
        apply List.filter_congr
        intro kc2 hkc2
        have hne : kc2.1 ≠ k0 := by
          intro hh
          exact hk0rest (hh ▸ List.mem_map_of_mem Prod.fst hkc2)
        simp only [decide_eq_decide]
        rw [hkeys1 kc2.1]
        constructor
        · intro hh h2
          exact hh (Or.inl h2)
        · rintro hh (h2 | h2)
          · exact hh h2
          · exact hne h2
      rw [hfc, hm1, length_hmInsert]
      by_cases h : k0 ∈ keysOf agg
      · rw [if_pos h]
        have : ((k0, c0) :: rest).filter (fun kc => decide (kc.1 ∉ keysOf agg))
            = rest.filter (fun kc => decide (kc.1 ∉ keysOf agg)) := by
          rw [List.filter_cons]
          simp [h]
        rw [this]
      · rw [if_neg h]
        have : ((k0, c0) :: rest).filter (fun kc => decide (kc.1 ∉ keysOf agg))
            = (k0, c0) :: rest.filter (fun kc => decide (kc.1 ∉ keysOf agg)) := by
          rw [List.filter_cons]
          simp [h]
        rw [this]
        simp only [List.length_cons]
        omega

lemma merge_pos_eq_fold (agg inc : List (SignerIndex × Nat))
    (haggN : (keysOf agg).Nodup) (haggP : ∀ kc ∈ agg, 0 < kc.2)
    (hincN : (keysOf inc).Nodup) (hincP : ∀ kc ∈ inc, 0 < kc.2)
    (hb : ∀ kc ∈ inc, occOf agg kc.1 + kc.2 < 65536) :
    merge_signature_occurrences agg inc = merge_fold agg inc := by
  rw [merge_signature_occurrences_eq_fold]
  obtain ⟨_, hP, _, _, _⟩ := merge_fold_props inc agg haggN haggP hincN hincP hb
  apply List.filter_eq_self.mpr
  intro kc hkc
  exact decide_eq_true (hP kc hkc)

lemma ackAndModify_skip (env ack : Envelope)
    (hN : (keysOf env.signature_occurrences).Nodup)
    (hP : ∀ kc ∈ env.signature_occurrences, 0 < kc.2)
    (haN : (keysOf ack.signature_occurrences).Nodup)
    (haP : ∀ kc ∈ ack.signature_occurrences, 0 < kc.2)
    (hb : ∀ kc ∈ ack.signature_occurrences,
      occOf env.signature_occurrences kc.1 + kc.2 < 65536)
    (hsub : ∀ kc ∈ ack.signature_occurrences,
      kc.1 ∈ keysOf env.signature_occurrences) :
    ackAndModify env ack = env := by
  obtain ⟨_, _, _, _, hlen⟩ :=
    merge_fold_props ack.signature_occurrences env.signature_occurrences hN hP haN haP hb
  have hfe : ack.signature_occurrences.filter
      (fun kc => decide (kc.1 ∉ keysOf env.signature_occurrences)) = [] := by
    rw [List.filter_eq_nil_iff]
    intro kc hkc
    simp only [decide_eq_true_eq, not_not]
    exact hsub kc hkc
  have hcond : ¬ env.signature_occurrences.length
      < (merge_signature_occurrences env.signature_occurrences
          ack.signature_occurrences).length := by
    rw [merge_pos_eq_fold _ _ hN hP haN haP hb, hlen, hfe]
    simp
  unfold ackAndModify
  dsimp only
  rw [if_neg hcond]

lemma ackAndModify_commit (env ack : Envelope)
    (hN : (keysOf env.signature_occurrences).Nodup)
    (hP : ∀ kc ∈ env.signature_occurrences, 0 < kc.2)
    (haN : (keysOf ack.signature_occurrences).Nodup)
    (haP : ∀ kc ∈ ack.signature_occurrences, 0 < kc.2)
    (hb : ∀ kc ∈ ack.signature_occurrences,
      occOf env.signature_occurrences kc.1 + kc.2 < 65536)
    (kc0 : SignerIndex × Nat) (hkc0 : kc0 ∈ ack.signature_occurrences)
    (hnsub : kc0.1 ∉ keysOf env.signature_occurrences) :
    ackAndModify env ack
      = { aggregated_signature := Signature.merge env.aggregated_signature
            ack.aggregated_signature
          signature_occurrences := merge_fold env.signature_occurrences
            ack.signature_occurrences
          data := env.data } := by
  obtain ⟨_, _, _, _, hlen⟩ :=
    merge_fold_props ack.signature_occurrences env.signature_occurrences hN hP haN haP hb
  have hmemf : kc0 ∈ ack.signature_occurrences.filter
      (fun kc => decide (kc.1 ∉ keysOf env.signature_occurrences)) := by
    rw [List.mem_filter]
    exact ⟨hkc0, decide_eq_true hnsub⟩
  have hlenpos : 0 < (ack.signature_occurrences.filter
      (fun kc => decide (kc.1 ∉ keysOf env.signature_occurrences))).length :=
    List.length_pos.mpr (List.ne_nil_of_mem hmemf)
  have hcond : env.signature_occurrences.length
      < (merge_signature_occurrences env.signature_occurrences
          ack.signature_occurrences).length := by
    rw [merge_pos_eq_fold _ _ hN hP haN haP hb, hlen]
    omega
  unfold ackAndModify
  dsimp only
  rw [if_pos hcond, merge_pos_eq_fold _ _ hN hP haN haP hb]

/-- The total occurrence count signer `k` accumulates for block `b` over a
list of ack envelopes. -/
def totalCount (S : List Envelope) (b : BlockIdentifier) (k : SignerIndex) : Nat :=
  (S.map (fun e =>
    if e.data.block_id = b then occOf e.signature_occurrences k else 0)).sum

lemma totalCount_append (l1 l2 : List Envelope) (b : BlockIdentifier)
    (k : SignerIndex) :
    totalCount (l1 ++ l2) b k = totalCount l1 b k + totalCount l2 b k := by
  simp [totalCount]

lemma totalCount_singleton (e : Envelope) (b : BlockIdentifier) (k : SignerIndex) :
    totalCount [e] b k
      = if e.data.block_id = b then occOf e.signature_occurrences k else 0 := by
  simp [totalCount]

lemma occOf_le_totalCount_of_mem (S : List Envelope) (e : Envelope) (he : e ∈ S)
    (b : BlockIdentifier) (hbe : e.data.block_id = b) (k : SignerIndex) :
    occOf e.signature_occurrences k ≤ totalCount S b k := by
  have hmem : (if e.data.block_id = b then occOf e.signature_occurrences k else 0)
      ∈ S.map (fun e2 =>
        if e2.data.block_id = b then occOf e2.signature_occurrences k else 0) :=
    List.mem_map_of_mem _ he
  have := List.single_le_sum (l := S.map (fun e2 =>
      if e2.data.block_id = b then occOf e2.signature_occurrences k else 0))
    (fun x _ => Nat.zero_le x) _ hmem
  rwa [if_pos hbe] at this

/-- The invariant maintained by the `aggregate_acks` fold: after processing
the envelopes `pre`, the accumulated map `m` has duplicate-free keys equal to
the processed block ids; every aggregated envelope has duplicate-free,
positive occurrence counts bounded by the per-signer totals of the processed
prefix, and contains every processed signer index of its block. -/
structure AggInv (pre : List Envelope) (m : List (BlockIdentifier × Envelope)) : Prop where
  keys_nodup : (keysOf m).Nodup
  keys_mem : ∀ b, b ∈ keysOf m ↔ b ∈ pre.map (fun e => e.data.block_id)
  entry_nodup : ∀ b env, alookup m b = some env →
    (keysOf env.signature_occurrences).Nodup
  entry_pos : ∀ b env, alookup m b = some env →
    ∀ kc ∈ env.signature_occurrences, 0 < kc.2
  entry_le : ∀ b env, alookup m b = some env →
    ∀ k, occOf env.signature_occurrences k ≤ totalCount pre b k
  entry_keys : ∀ b env, alookup m b = some env → ∀ e ∈ pre, e.data.block_id = b →
    ∀ kc ∈ e.signature_occurrences, kc.1 ∈ keysOf env.signature_occurrences

lemma aggInv_nil : AggInv [] [] := by
  refine ⟨List.nodup_nil, ?_, ?_, ?_, ?_, ?_⟩ <;> simp [keysOf, alookup]

lemma aggregate_step_inv (pre : List Envelope) (m : List (BlockIdentifier × Envelope))
    (ack : Envelope) (hInv : AggInv pre m)
    (hackN : (keysOf ack.signature_occurrences).Nodup)
    (hackP : ∀ kc ∈ ack.signature_occurrences, 0 < kc.2)
    (hb : ∀ kc ∈ ack.signature_occurrences,
      totalCount (pre ++ [ack]) ack.data.block_id kc.1 < 65536) :
    AggInv (pre ++ [ack]) (aggregate_acks_step m ack) := by
  have hidmap : (pre ++ [ack]).map (fun e => e.data.block_id)
      = pre.map (fun e => e.data.block_id) ++ [ack.data.block_id] := by
    simp
  by_cases hmem : (alookup m ack.data.block_id).isSome
  · -- update branch
    obtain ⟨env0, henv0⟩ : ∃ env0, alookup m ack.data.block_id = some env0 := by
      cases hm : alookup m ack.data.block_id
      · rw [hm] at hmem; simp at hmem
      · exact ⟨_, rfl⟩
    have hstep : aggregate_acks_step m ack
        = m.map (fun p => if p.1 = ack.data.block_id
            then (p.1, ackAndModify p.2 ack) else p) := by
      unfold aggregate_acks_step
      rw [if_pos hmem]
    have hlookup : ∀ b, alookup (aggregate_acks_step m ack) b
        = if b = ack.data.block_id
          then (alookup m b).map (fun v => ackAndModify v ack)
          else alookup m b := by
      intro b
      rw [hstep]
      exact alookup_map_update m ack.data.block_id (fun p => ackAndModify p.2 ack) b
    have hkeys : keysOf (aggregate_acks_step m ack) = keysOf m := by
      rw [hstep]
      exact keysOf_map_update m ack.data.block_id (fun p => ackAndModify p.2 ack)
    have hb0mem : ack.data.block_id ∈ keysOf m :=
      (alookup_isSome_iff m ack.data.block_id).mp hmem
    -- hygiene of the stored envelope
    have hN0 := hInv.entry_nodup _ _ henv0
    have hP0 := hInv.entry_pos _ _ henv0
    have hbound0 : ∀ kc ∈ ack.signature_occurrences,
        occOf env0.signature_occurrences kc.1 + kc.2 < 65536 := by
      intro kc hkc
      have h1 := hInv.entry_le _ _ henv0 kc.1
      have h2 : occOf ack.signature_occurrences kc.1 = kc.2 := by
        rw [occOf, alookup_eq_some_of_mem_nodup _ hackN kc.1 kc.2 hkc]
        rfl
      have h3 := hb kc hkc
      rw [totalCount_append, totalCount_singleton, if_pos rfl, h2] at h3
      omega
    refine ⟨hkeys ▸ hInv.keys_nodup, ?_, ?_, ?_, ?_, ?_⟩
    · intro b
      rw [hkeys, hidmap, List.mem_append, List.mem_singleton, hInv.keys_mem b]
      constructor
      · exact fun h => Or.inl h
      · rintro (h | h)
        · exact h
        · exact (hInv.keys_mem b).mpr (((hInv.keys_mem _).mp (h ▸ hb0mem)) |>
            fun _ => by rw [h, ← hInv.keys_mem]; exact hb0mem) |> fun _ => by
            rw [h, ← hInv.keys_mem]; exact hb0mem
    · intro b env henv
      rw [hlookup b] at henv
      by_cases hbb : b = ack.data.block_id
      · rw [if_pos hbb, hbb, henv0] at henv
        rw [Option.map_some'] at henv
        cases henv
        rcases Classical.em (∀ kc ∈ ack.signature_occurrences,
            kc.1 ∈ keysOf env0.signature_occurrences) with hsub | hnsub
        · rw [ackAndModify_skip env0 ack hN0 hP0 hackN hackP hbound0 hsub]
          exact hN0
        · push_neg at hnsub
          obtain ⟨kc0, hkc0, hkc0n⟩ := hnsub
          rw [ackAndModify_commit env0 ack hN0 hP0 hackN hackP hbound0 kc0 hkc0 hkc0n]
          exact (merge_fold_props ack.signature_occurrences env0.signature_occurrences
            hN0 hP0 hackN hackP hbound0).1
      · rw [if_neg hbb] at henv
        exact hInv.entry_nodup b env henv
    · intro b env henv
      rw [hlookup b] at henv
      by_cases hbb : b = ack.data.block_id
      · rw [if_pos hbb, hbb, henv0] at henv
        rw [Option.map_some'] at henv
        cases henv
        rcases Classical.em (∀ kc ∈ ack.signature_occurrences,
            kc.1 ∈ keysOf env0.signature_occurrences) with hsub | hnsub
        · rw [ackAndModify_skip env0 ack hN0 hP0 hackN hackP hbound0 hsub]
          exact hP0
        · push_neg at hnsub
          obtain ⟨kc0, hkc0, hkc0n⟩ := hnsub
          rw [ackAndModify_commit env0 ack hN0 hP0 hackN hackP hbound0 kc0 hkc0 hkc0n]
          exact (merge_fold_props ack.signature_occurrences env0.signature_occurrences
            hN0 hP0 hackN hackP hbound0).2.1
      · rw [if_neg hbb] at henv
        exact hInv.entry_pos b env henv
    · intro b env henv k
      rw [hlookup b] at henv
      by_cases hbb : b = ack.data.block_id
      · rw [if_pos hbb, hbb, henv0] at henv
        rw [Option.map_some'] at henv
        cases henv
        subst hbb
        rw [totalCount_append, totalCount_singleton, if_pos rfl]
        rcases Classical.em (∀ kc ∈ ack.signature_occurrences,
            kc.1 ∈ keysOf env0.signature_occurrences) with hsub | hnsub
        · rw [ackAndModify_skip env0 ack hN0 hP0 hackN hackP hbound0 hsub]
          have := hInv.entry_le _ _ henv0 k
          omega
        · push_neg at hnsub
          obtain ⟨kc0, hkc0, hkc0n⟩ := hnsub
          rw [ackAndModify_commit env0 ack hN0 hP0 hackN hackP hbound0 kc0 hkc0 hkc0n]
          have hocc := (merge_fold_props ack.signature_occurrences
            env0.signature_occurrences hN0 hP0 hackN hackP hbound0).2.2.1 k
          simp only at hocc ⊢
          rw [hocc]
          have := hInv.entry_le _ _ henv0 k
          omega
      · rw [if_neg hbb] at henv
        have := hInv.entry_le b env henv k
        rw [totalCount_append]
        omega
    · intro b env henv e he hbe kc hkc
      rw [hlookup b] at henv
      rcases List.mem_append.mp he with hepre | heack
      · by_cases hbb : b = ack.data.block_id
        · rw [if_pos hbb, hbb, henv0] at henv
          rw [Option.map_some'] at henv
          cases henv
          have hold := hInv.entry_keys _ _ henv0 e hepre (hbb ▸ hbe) kc hkc
          rcases Classical.em (∀ kc2 ∈ ack.signature_occurrences,
              kc2.1 ∈ keysOf env0.signature_occurrences) with hsub | hnsub
          · rw [ackAndModify_skip env0 ack hN0 hP0 hackN hackP hbound0 hsub]
            exact hold
          · push_neg at hnsub
            obtain ⟨kc0, hkc0, hkc0n⟩ := hnsub
            rw [ackAndModify_commit env0 ack hN0 hP0 hackN hackP hbound0 kc0 hkc0 hkc0n]
            exact ((merge_fold_props ack.signature_occurrences env0.signature_occurrences
              hN0 hP0 hackN hackP hbound0).2.2.2.1 kc.1).mpr (Or.inl hold)
        · rw [if_neg hbb] at henv
          exact hInv.entry_keys b env henv e hepre hbe kc hkc
      · have heq : e = ack := List.mem_singleton.mp heack
        subst heq
        have hbb : b = e.data.block_id := hbe.symm
        rw [if_pos hbb, hbb, henv0] at henv
        rw [Option.map_some'] at henv
        cases henv
        rcases Classical.em (∀ kc2 ∈ e.signature_occurrences,
            kc2.1 ∈ keysOf env0.signature_occurrences) with hsub | hnsub
        · rw [ackAndModify_skip env0 e hN0 hP0 hackN hackP hbound0 hsub]
          exact hsub kc hkc
        · push_neg at hnsub
          obtain ⟨kc0, hkc0, hkc0n⟩ := hnsub
          rw [ackAndModify_commit env0 e hN0 hP0 hackN hackP hbound0 kc0 hkc0 hkc0n]
          exact ((merge_fold_props e.signature_occurrences env0.signature_occurrences
            hN0 hP0 hackN hackP hbound0).2.2.2.1 kc.1).mpr
            (Or.inr (List.mem_map_of_mem Prod.fst hkc))
  · -- insert branch
    have hstep : aggregate_acks_step m ack = m ++ [(ack.data.block_id, ack)] := by
      unfold aggregate_acks_step
      rw [if_neg hmem]
    have hb0nmem : ack.data.block_id ∉ keysOf m := by
      rw [← alookup_isSome_iff]
      exact hmem
    have hlookup : ∀ b, alookup (aggregate_acks_step m ack) b
        = if b = ack.data.block_id ∧ alookup m b = none
          then some ack else alookup m b := by
      intro b
      rw [hstep, alookup_append]
      cases hm : alookup m b with
      | none =>
        by_cases hbb : b = ack.data.block_id
        · subst hbb
          rw [if_pos ⟨rfl, rfl⟩]
          exact alookup_cons_self _ _ _
        · rw [if_neg (fun h => hbb h.1)]
          rw [alookup_cons_ne _ _ _ (fun hh => hbb hh.symm)]
          rfl
      | some val =>
        have hne : ¬ (b = ack.data.block_id ∧ (some val : Option Envelope) = none) :=
          fun h => Option.noConfusion h.2
        rw [if_neg hne]
    refine ⟨?_, ?_, ?_, ?_, ?_, ?_⟩
    · rw [hstep, keysOf_append]
      simp only [keysOf_cons, keysOf_nil]
      rw [List.nodup_append]
      exact ⟨hInv.keys_nodup, List.nodup_singleton _,
        by simp [List.Disjoint]; intro a ha hc; exact hb0nmem (hc ▸ ha)⟩
    · intro b
      rw [hstep, keysOf_append, hidmap]
      simp only [keysOf_cons, keysOf_nil, List.mem_append, List.mem_singleton,
        List.mem_cons, List.not_mem_nil, or_false]
      rw [hInv.keys_mem b]
    · intro b env henv
      rw [hlookup b] at henv
      by_cases hbb : b = ack.data.block_id ∧ alookup m b = none
      · rw [if_pos hbb] at henv
        cases henv
        exact hackN
      · rw [if_neg hbb] at henv
        exact hInv.entry_nodup b env henv
    · intro b env henv
      rw [hlookup b] at henv
      by_cases hbb : b = ack.data.block_id ∧ alookup m b = none
      · rw [if_pos hbb] at henv
        cases henv
        exact hackP
      · rw [if_neg hbb] at henv
        exact hInv.entry_pos b env henv
    · intro b env henv k
      rw [hlookup b] at henv
      by_cases hbb : b = ack.data.block_id ∧ alookup m b = none
      · rw [if_pos hbb] at henv
        cases henv
        rw [hbb.1, totalCount_append, totalCount_singleton, if_pos rfl]
        omega
      · rw [if_neg hbb] at henv
        have := hInv.entry_le b env henv k
        rw [totalCount_append]
        omega
    · intro b env henv e he hbe kc hkc
      rw [hlookup b] at henv
      rcases List.mem_append.mp he with hepre | heack
      · by_cases hbb : b = ack.data.block_id ∧ alookup m b = none
        · exfalso
          have : b ∈ pre.map (fun e2 => e2.data.block_id) :=
            hbe ▸ List.mem_map_of_mem _ hepre
          exact (alookup_eq_none_iff m b).mp hbb.2 ((hInv.keys_mem b).mpr this)
        · rw [if_neg hbb] at henv
          exact hInv.entry_keys b env henv e hepre hbe kc hkc
      · have heq : e = ack := List.mem_singleton.mp heack
        subst heq
        by_cases hbb : b = e.data.block_id ∧ alookup m b = none
        · rw [if_pos hbb] at henv
          cases henv
          exact List.mem_map_of_mem Prod.fst hkc
        · rw [if_neg hbb] at henv
          exfalso
          have hbk : b ∈ keysOf m := by
            rw [← alookup_isSome_iff, henv]
            rfl
          have hbpre : b ∈ pre.map (fun e2 => e2.data.block_id) :=
            (hInv.keys_mem b).mp hbk
          -- b = ack's block id, yet ack's block id is not a key of m
          have hbid : b = e.data.block_id := hbe.symm
          exact hb0nmem (hbid ▸ hbk)

lemma aggregate_foldl_inv (rest : List Envelope) :
    ∀ (pre : List Envelope) (m : List (BlockIdentifier × Envelope)),
    AggInv pre m →
    (∀ e ∈ rest, (keysOf e.signature_occurrences).Nodup
      ∧ ∀ kc ∈ e.signature_occurrences, 0 < kc.2) →
    (∀ e ∈ rest, ∀ kc ∈ e.signature_occurrences,
      totalCount (pre ++ rest) e.data.block_id kc.1 < 65536) →
    AggInv (pre ++ rest) (rest.foldl aggregate_acks_step m) := by
  induction rest with
  | nil =>
    intro pre m hInv _ _
    simpa using hInv
  | cons e rest2 ih =>
    intro pre m hInv hwf hb
    have hsplit : pre ++ e :: rest2 = (pre ++ [e]) ++ rest2 := by simp
    have hstep : AggInv (pre ++ [e]) (aggregate_acks_step m e) := by
      apply aggregate_step_inv pre m e hInv (hwf e (List.mem_cons_self _ _)).1
        (hwf e (List.mem_cons_self _ _)).2
      intro kc hkc
      have h1 := hb e (List.mem_cons_self _ _) kc hkc
      have h2 : totalCount (pre ++ [e]) e.data.block_id kc.1
          ≤ totalCount (pre ++ e :: rest2) e.data.block_id kc.1 := by
        rw [hsplit, totalCount_append, totalCount_append, totalCount_append]
        omega
      omega
    rw [List.foldl_cons, hsplit]
    apply ih (pre ++ [e]) _ hstep
      (fun e2 he2 => hwf e2 (List.mem_cons_of_mem _ he2))
    intro e2 he2 kc hkc
    have := hb e2 (List.mem_cons_of_mem _ he2) kc hkc
    rw [hsplit] at this
    exact this

lemma aggregate_step_fix (S : List Envelope) (m : List (BlockIdentifier × Envelope))
    (hInv : AggInv S m) (e : Envelope) (he : e ∈ S)
    (heN : (keysOf e.signature_occurrences).Nodup)
    (heP : ∀ kc ∈ e.signature_occurrences, 0 < kc.2)
    (hb : ∀ kc ∈ e.signature_occurrences,
      2 * totalCount S e.data.block_id kc.1 < 65536) :
    aggregate_acks_step m e = m := by
  have hbk : e.data.block_id ∈ keysOf m :=
    (hInv.keys_mem _).mpr (List.mem_map_of_mem _ he)
  have hmem : (alookup m e.data.block_id).isSome :=
    (alookup_isSome_iff _ _).mpr hbk
  unfold aggregate_acks_step
  rw [if_pos hmem]
  apply map_update_eq_self
  intro p hp hpb
  have henv : alookup m p.1 = some p.2 :=
    alookup_eq_some_of_mem_nodup m hInv.keys_nodup p.1 p.2 hp
  rw [hpb] at henv
  have hN0 := hInv.entry_nodup _ _ henv
  have hP0 := hInv.entry_pos _ _ henv
  have hsub : ∀ kc ∈ e.signature_occurrences,
      kc.1 ∈ keysOf p.2.signature_occurrences :=
    fun kc hkc => hInv.entry_keys _ _ henv e he rfl kc hkc
  have hbound : ∀ kc ∈ e.signature_occurrences,
      occOf p.2.signature_occurrences kc.1 + kc.2 < 65536 := by
    intro kc hkc
    have h1 := hInv.entry_le _ _ henv kc.1
    have h2 : occOf e.signature_occurrences kc.1 = kc.2 := by
      rw [occOf, alookup_eq_some_of_mem_nodup _ heN kc.1 kc.2 hkc]
      rfl
    have h3 : occOf e.signature_occurrences kc.1
        ≤ totalCount S e.data.block_id kc.1 :=
      occOf_le_totalCount_of_mem S e he _ rfl kc.1
    have h4 := hb kc hkc
    omega
  exact ackAndModify_skip p.2 e hN0 hP0 heN heP hbound hsub

/-- C1 (amended): `aggregate_acks` is idempotent on well-formed input: for a
multiset of ack envelopes whose occurrence counts are all positive (no zero
counts) and whose per-signer totals, doubled, stay below `2^16` (no `u16`
overflow), aggregating the multiset union of `S` with itself (realised as
`S ++ S`) yields the same aggregated map as aggregating `S`, both literally
and after pruning zero counts; re-processing an envelope whose signers are
already counted leaves the aggregate untouched. -/
theorem aggregate_acks_idempotent (S : List Envelope)
    (hwf : ∀ e ∈ S, (keysOf e.signature_occurrences).Nodup
      ∧ ∀ kc ∈ e.signature_occurrences, 0 < kc.2)
    (hbound : ∀ e ∈ S, ∀ kc ∈ e.signature_occurrences,
      2 * totalCount S e.data.block_id kc.1 < 65536) :
    aggregate_acks (S ++ S) = aggregate_acks S
    ∧ postPrune (aggregate_acks (S ++ S)) = postPrune (aggregate_acks S) := by
  have hInv : AggInv S (aggregate_acks S) := by
    have h := aggregate_foldl_inv S [] [] aggInv_nil hwf ?_
    · simpa [aggregate_acks_eq_foldl] using h
    · intro e he kc hkc
      have := hbound e he kc hkc
      simpa using (by omega : totalCount S e.data.block_id kc.1 < 65536)
  have hfix : ∀ (l : List Envelope), (∀ e ∈ l, e ∈ S) →
      l.foldl aggregate_acks_step (aggregate_acks S) = aggregate_acks S := by
    intro l
    induction l with
    | nil => intro _; rfl
    | cons e l2 ih =>
      intro hsub
      rw [List.foldl_cons,
        aggregate_step_fix S _ hInv e (hsub e (List.mem_cons_self _ _))
          (hwf e (hsub e (List.mem_cons_self _ _))).1
          (hwf e (hsub e (List.mem_cons_self _ _))).2
          (hbound e (hsub e (List.mem_cons_self _ _)))]
      exact ih (fun e2 he2 => hsub e2 (List.mem_cons_of_mem _ he2))
  have h1 : aggregate_acks (S ++ S) = aggregate_acks S := by
    rw [aggregate_acks_eq_foldl, List.foldl_append, ← aggregate_acks_eq_foldl]
    exact hfix S (fun e he => he)
  exact ⟨h1, by rw [h1]⟩

/-- Witness for C1 (amended) at a concrete input. -/
theorem aggregate_acks_idempotent_witness :
    aggregate_acks ([⟨.base 1, [(0, 1), (1, 1)], ⟨⟨[3]⟩⟩⟩,
          ⟨.base 2, [(1, 2), (2, 1)], ⟨⟨[3]⟩⟩⟩]
        ++ [⟨.base 1, [(0, 1), (1, 1)], ⟨⟨[3]⟩⟩⟩,
          ⟨.base 2, [(1, 2), (2, 1)], ⟨⟨[3]⟩⟩⟩])
      = aggregate_acks [⟨.base 1, [(0, 1), (1, 1)], ⟨⟨[3]⟩⟩⟩,
          ⟨.base 2, [(1, 2), (2, 1)], ⟨⟨[3]⟩⟩⟩]
    ∧ postPrune (aggregate_acks ([⟨.base 1, [(0, 1), (1, 1)], ⟨⟨[3]⟩⟩⟩,
          ⟨.base 2, [(1, 2), (2, 1)], ⟨⟨[3]⟩⟩⟩]
        ++ [⟨.base 1, [(0, 1), (1, 1)], ⟨⟨[3]⟩⟩⟩,
          ⟨.base 2, [(1, 2), (2, 1)], ⟨⟨[3]⟩⟩⟩]))
      = postPrune (aggregate_acks [⟨.base 1, [(0, 1), (1, 1)], ⟨⟨[3]⟩⟩⟩,
          ⟨.base 2, [(1, 2), (2, 1)], ⟨⟨[3]⟩⟩⟩]) :=
  aggregate_acks_idempotent
    [⟨.base 1, [(0, 1), (1, 1)], ⟨⟨[3]⟩⟩⟩, ⟨.base 2, [(1, 2), (2, 1)], ⟨⟨[3]⟩⟩⟩]
    (by decide) (by decide)

/-- C1 counterexample envelope: carries two zero-count entries next to a
positive one (nothing in the source validates incoming counts). -/
def cexAckZero : Envelope := ⟨.base 0, [(0, 0), (5, 0), (1, 1)], ⟨⟨[1]⟩⟩⟩

/-- C1 counterexample envelope with two fresh signers. -/
def cexAckTwo : Envelope := ⟨.base 1, [(2, 1), (3, 1)], ⟨⟨[1]⟩⟩⟩

/-- C1 counterexample envelope with three fresh signers. -/
def cexAckThree : Envelope := ⟨.base 2, [(6, 1), (7, 1), (8, 1)], ⟨⟨[1]⟩⟩⟩

/-- C1 counterexample: for `S = [cexAckZero, cexAckTwo, cexAckThree]`,
aggregating `S ⊎ S` does not equal aggregating `S` after pruning: signer 2 is
dropped by `aggregate_acks S` (the zero-count entries make the length test
miss `cexAckTwo`'s new signers) but is counted once by
`aggregate_acks (S ++ S)`. -/
theorem aggregate_acks_not_idempotent_with_zero_counts :
    postPrune (aggregate_acks ([cexAckZero, cexAckTwo, cexAckThree]
          ++ [cexAckZero, cexAckTwo, cexAckThree]))
      ≠ postPrune (aggregate_acks [cexAckZero, cexAckTwo, cexAckThree])
    ∧ (alookup (aggregate_acks ([cexAckZero, cexAckTwo, cexAckThree]
          ++ [cexAckZero, cexAckTwo, cexAckThree])) ⟨[1]⟩).map
        (fun env => occOf env.signature_occurrences 2) = some 1
    ∧ (alookup (aggregate_acks [cexAckZero, cexAckTwo, cexAckThree]) ⟨[1]⟩).map
        (fun env => occOf env.signature_occurrences 2) = some 0 := by
  refine ⟨by decide, by decide, by decide⟩

/-! ### `execute_epoch_messages` — src/node/src/block/producer/builder/special_messages.rs -/

/-- Account ids, opaque (`AccountId` in the source). -/
abbrev AccountId := Nat

/-- What the dispatch loop observes of one epoch message built by
`create_epoch_touch_message` from a `BlockKeeperData` entry: its internal
destination (`int_dst_account_id()`, `none` for an invalid internal
destination) and whether that destination belongs to the current thread's
state (`does_account_belong_to_the_state`). -/
structure EpochMessage where
  dst : Option AccountId
  belongs_to_state : Bool
deriving DecidableEq, Repr

/-- Scheduler state of the `execute_epoch_messages` loop: `pending` models
`epoch_block_keeper_data` (front = next candidate), `active_ext_threads` the
FIFO of in-flight executor threads (each recorded by the destination account
of the message it executes), `active_destinations` the `HashSet` of accounts
with an in-flight execution. -/
structure EpochExecState where
  pending : List EpochMessage
  active_ext_threads : List AccountId
  active_destinations : List AccountId
deriving DecidableEq, Repr

/-- The atomic state changes of the `execute_epoch_messages` loop:
`drop_no_dst` and `drop_foreign` remove a head message with no/foreign
destination (warning only); `dispatch` runs only when the pool is below
`parallelization_level` and the destination has no in-flight execution,
pushing the new thread at the back of the FIFO and recording its destination;
`complete` drains the front thread when its result is ready (`try_recv`),
removing its destination. A head whose destination is already active admits
no transition until the matching `complete` fires (head-of-line blocking). -/
inductive EpochStep (parallelization_level : Nat) :
    EpochExecState → EpochExecState → Prop where
  | drop_no_dst : ∀ m rest a d, m.dst = none →
      EpochStep parallelization_level ⟨m :: rest, a, d⟩ ⟨rest, a, d⟩
  | drop_foreign : ∀ m rest a d acc, m.dst = some acc → m.belongs_to_state = false →
      EpochStep parallelization_level ⟨m :: rest, a, d⟩ ⟨rest, a, d⟩
  | dispatch : ∀ m rest a d acc, m.dst = some acc → m.belongs_to_state = true →
      a.length < parallelization_level → acc ∉ d →
      EpochStep parallelization_level ⟨m :: rest, a, d⟩ ⟨rest, a ++ [acc], acc :: d⟩
  | complete : ∀ pending acc a d,
      EpochStep parallelization_level ⟨pending, acc :: a, d⟩ ⟨pending, a, d.erase acc⟩

/-- The state of the loop on entry: all epoch messages pending, nothing in
flight. -/
def epochInit (msgs : List EpochMessage) : EpochExecState := ⟨msgs, [], []⟩

/-- The loop invariant: the in-flight pool is bounded by
`parallelization_level`, in-flight destination accounts are pairwise
distinct, and `active_destinations` tracks exactly the accounts of in-flight
threads. -/
def EpochInv (parallelization_level : Nat) (s : EpochExecState) : Prop :=
  s.active_ext_threads.length ≤ parallelization_level
  ∧ s.active_ext_threads.Nodup
  ∧ s.active_destinations.Nodup
  ∧ ∀ acc, acc ∈ s.active_ext_threads ↔ acc ∈ s.active_destinations

lemma epoch_step_inv (parallelization_level : Nat) (s s2 : EpochExecState)
    (h : EpochInv parallelization_level s)
    (hs : EpochStep parallelization_level s s2) :
    EpochInv parallelization_level s2 := by
  obtain ⟨hlen, hnodA, hnodD, hiff⟩ := h
  cases hs with
  | drop_no_dst m rest a d _ => exact ⟨hlen, hnodA, hnodD, hiff⟩
  | drop_foreign m rest a d acc _ _ => exact ⟨hlen, hnodA, hnodD, hiff⟩
  | dispatch m rest a d acc _ _ hcap hnd =>
    have hna : acc ∉ a := fun ha => hnd ((hiff acc).mp ha)
    refine ⟨?_, ?_, ?_, ?_⟩
    · simp only [List.length_append, List.length_singleton]
      omega
    · simp [List.nodup_append, hnodA, hna]
    · exact List.nodup_cons.mpr ⟨hnd, hnodD⟩
    · intro x
      simp only [List.mem_append, List.mem_singleton, List.mem_cons]
      rw [hiff x]
      tauto
  | complete pending acc a d =>
    have hacc : acc ∈ d := (hiff acc).mp (List.mem_cons_self _ _)
    have hna : acc ∉ a := (List.nodup_cons.mp hnodA).1
    refine ⟨?_, (List.nodup_cons.mp hnodA).2, hnodD.erase acc, ?_⟩
    · show a.length ≤ parallelization_level
      simp only [List.length_cons] at hlen
      omega
    · intro x
      rw [hnodD.mem_erase_iff]
      constructor
      · intro hx
        refine ⟨fun hxe => hna (hxe ▸ hx), (hiff x).mp (List.mem_cons_of_mem _ hx)⟩
      · rintro ⟨hxne, hxd⟩
        rcases List.mem_cons.mp ((hiff x).mpr hxd) with h1 | h1
        · exact absurd h1 hxne
        · exact h1

/-- C7: throughout the `execute_epoch_messages` dispatch loop (every state
reachable from the initial state by its atomic steps), the number of
in-flight executor threads never exceeds `parallelization_level`, and at most
one in-flight execution exists per destination account — a message whose
destination is already active is not dispatched before the earlier execution
for that account completes and is drained (the in-flight accounts are exactly
`active_destinations`, and the dispatch guard requires absence from it). -/
theorem epoch_executor_bounded_and_serial (parallelization_level : Nat)
    (msgs : List EpochMessage) (s : EpochExecState)
    (hreach : Relation.ReflTransGen (EpochStep parallelization_level)
      (epochInit msgs) s) :
    s.active_ext_threads.length ≤ parallelization_level
    ∧ s.active_ext_threads.Nodup
    ∧ ∀ acc, acc ∈ s.active_ext_threads ↔ acc ∈ s.active_destinations := by
  have hinv : EpochInv parallelization_level s := by
    induction hreach with
    | refl => exact ⟨Nat.zero_le _, List.nodup_nil, List.nodup_nil, fun acc => Iff.rfl⟩
    | tail hab hstep ih => exact epoch_step_inv _ _ _ ih hstep
  exact ⟨hinv.1, hinv.2.1, hinv.2.2.2⟩

/-- Witness for C7 at a concrete input: two dispatches with
`parallelization_level = 2`. -/
theorem epoch_executor_bounded_and_serial_witness :
    (⟨[], [1, 2], [2, 1]⟩ : EpochExecState).active_ext_threads.length ≤ 2
    ∧ (⟨[], [1, 2], [2, 1]⟩ : EpochExecState).active_ext_threads.Nodup
    ∧ ∀ acc, acc ∈ (⟨[], [1, 2], [2, 1]⟩ : EpochExecState).active_ext_threads
        ↔ acc ∈ (⟨[], [1, 2], [2, 1]⟩ : EpochExecState).active_destinations := by
  have hreach : Relation.ReflTransGen (EpochStep 2)
      (epochInit [⟨some 1, true⟩, ⟨some 2, true⟩]) ⟨[], [1, 2], [2, 1]⟩ :=
    Relation.ReflTransGen.head
      (EpochStep.dispatch ⟨some 1, true⟩ [⟨some 2, true⟩] [] [] 1 rfl rfl
        (by decide) (by decide))
      (Relation.ReflTransGen.head
        (EpochStep.dispatch ⟨some 2, true⟩ [] [1] [1] 2 rfl rfl
          (by decide) (by decide))
        Relation.ReflTransGen.refl)
  exact epoch_executor_bounded_and_serial 2 [⟨some 1, true⟩, ⟨some 2, true⟩]
    ⟨[], [1, 2], [2, 1]⟩ hreach

/-! ### `BlockIdentifier` string round-trips — src/node/src/types/block_identifier.rs -/

/-- Lowercase hex digit of a nibble (the `hex::encode` alphabet). -/
def hexDigitChar (n : Nat) : Char :=
  if n < 10 then Char.ofNat (48 + n) else Char.ofNat (87 + n)

/-- The two hex characters of one byte. -/
def byteToHexChars (b : Nat) : List Char :=
  [hexDigitChar (b / 16), hexDigitChar (b % 16)]

/-- `hex::encode`: lowercase hex rendering of a byte string. -/
def hexEncodeChars (bs : List Nat) : List Char :=
  (bs.map byteToHexChars).join

/-- Value of one hex digit (`hex::decode` accepts both cases). -/
def hexDigitVal (c : Char) : Option Nat :=
  if 48 ≤ c.toNat ∧ c.toNat ≤ 57 then some (c.toNat - 48)
  else if 97 ≤ c.toNat ∧ c.toNat ≤ 102 then some (c.toNat - 87)
  else if 65 ≤ c.toNat ∧ c.toNat ≤ 70 then some (c.toNat - 55)
  else none

/-- `hex::decode_to_slice` on a character list: pairs of hex digits to bytes;
fails on odd length or a non-hex character. -/
def hexDecodeBytes : List Char → Option (List Nat)
  | [] => some []
  | c1 :: c2 :: rest =>
    match hexDigitVal c1, hexDigitVal c2, hexDecodeBytes rest with
    | some h, some l, some tl => some ((h * 16 + l) :: tl)
    | _, _, _ => none
  | [_] => none

/-- Character of one 6-bit group (the standard base64 alphabet used by
`tvm_types::base64_decode_to_slice`, which is external collaborator code;
modelled as standard base64 with `=` padding). -/
def base64Char (n : Nat) : Char :=
  if n < 26 then Char.ofNat (65 + n)
  else if n < 52 then Char.ofNat (97 + (n - 26))
  else if n < 62 then Char.ofNat (48 + (n - 52))
  else if n = 62 then Char.ofNat 43
  else Char.ofNat 47

/-- Value of one base64 character. -/
def base64Val (c : Char) : Option Nat :=
  if 65 ≤ c.toNat ∧ c.toNat ≤ 90 then some (c.toNat - 65)
  else if 97 ≤ c.toNat ∧ c.toNat ≤ 122 then some (26 + (c.toNat - 97))
  else if 48 ≤ c.toNat ∧ c.toNat ≤ 57 then some (52 + (c.toNat - 48))
  else if c.toNat = 43 then some 62
  else if c.toNat = 47 then some 63
  else none

/-- Standard base64 encoding with `=` padding. -/
def base64EncodeChars : List Nat → List Char
  | [] => []
  | [b1] => [base64Char (b1 / 4), base64Char (b1 % 4 * 16), '=', '=']
  | [b1, b2] => [base64Char (b1 / 4), base64Char (b1 % 4 * 16 + b2 / 16),
      base64Char (b2 % 16 * 4), '=']
  | b1 :: b2 :: b3 :: rest =>
    base64Char (b1 / 4) :: base64Char (b1 % 4 * 16 + b2 / 16)
      :: base64Char (b2 % 16 * 4 + b3 / 64) :: base64Char (b3 % 64)
      :: base64EncodeChars rest

/-- Standard base64 decoding (padding only in the final 4-character group). -/
def base64DecodeBytes : List Char → Option (List Nat)
  | [] => some []
  | c1 :: c2 :: c3 :: c4 :: rest =>
    if c3 = '=' then
      if c4 = '=' ∧ rest = [] then
        match base64Val c1, base64Val c2 with
        | some v1, some v2 => some [v1 * 4 + v2 / 16]
        | _, _ => none
      else none
    else if c4 = '=' then
      if rest = [] then
        match base64Val c1, base64Val c2, base64Val c3 with
        | some v1, some v2, some v3 =>
          some [v1 * 4 + v2 / 16, v2 % 16 * 16 + v3 / 4]
        | _, _, _ => none
      else none
    else
      match base64Val c1, base64Val c2, base64Val c3, base64Val c4,
          base64DecodeBytes rest with
      | some v1, some v2, some v3, some v4, some tl =>
        some ((v1 * 4 + v2 / 16) :: (v2 % 16 * 16 + v3 / 4)
          :: (v3 % 4 * 64 + v4) :: tl)
      | _, _, _, _, _ => none
  | _ => none

/-- `BlockIdentifier::from_str`: dispatch on the string length — 64 plain hex
characters, 66 with the first two characters skipped, or 44 base64
characters; in each case exactly 32 bytes must be produced
(`decode_to_slice` into `[u8; 32]`). -/
def block_identifier_from_str (s : List Char) : Option BlockIdentifier :=
  if s.length = 64 then
    (hexDecodeBytes s).bind (fun bs => if bs.length = 32 then some ⟨bs⟩ else none)
  else if s.length = 66 then
    (hexDecodeBytes (s.drop 2)).bind
      (fun bs => if bs.length = 32 then some ⟨bs⟩ else none)
  else if s.length = 44 then
    (base64DecodeBytes s).bind
      (fun bs => if bs.length = 32 then some ⟨bs⟩ else none)
  else none

/-- `Display` for `BlockIdentifier` (also the non-alternate `LowerHex`):
plain lowercase hex. -/
def block_identifier_display (id : BlockIdentifier) : List Char :=
  hexEncodeChars id.bytes

/-- Alternate `LowerHex` (`{:#x}`): `0x`-prefixed hex. -/
def block_identifier_lower_hex_alt (id : BlockIdentifier) : List Char :=
  Char.ofNat 48 :: Char.ofNat 120 :: hexEncodeChars id.bytes

/-- The 44-character base64 rendering of the same 32-byte identifier. -/
def block_identifier_base64 (id : BlockIdentifier) : List Char :=
  base64EncodeChars id.bytes

lemma hexDigitVal_hexDigitChar : ∀ n < 16, hexDigitVal (hexDigitChar n) = some n := by
  decide

lemma hexEncodeChars_nil : hexEncodeChars [] = [] := rfl

lemma hexEncodeChars_cons (b : Nat) (bs : List Nat) :
    hexEncodeChars (b :: bs)
      = hexDigitChar (b / 16) :: hexDigitChar (b % 16) :: hexEncodeChars bs := rfl

lemma hexEncodeChars_length (bs : List Nat) :
    (hexEncodeChars bs).length = 2 * bs.length := by
  induction bs with
  | nil => rfl
  | cons b rest ih =>
    rw [hexEncodeChars_cons]
    simp only [List.length_cons, ih]
    omega

lemma hexDecode_hexEncode (bs : List Nat) (h : ∀ b ∈ bs, b < 256) :
    hexDecodeBytes (hexEncodeChars bs) = some bs := by
  induction bs with
  | nil => rfl
  | cons b rest ih =>
    have hb : b < 256 := h b (List.mem_cons_self _ _)
    have h1 := hexDigitVal_hexDigitChar (b / 16) (by omega)
    have h2 := hexDigitVal_hexDigitChar (b % 16) (Nat.mod_lt _ (by omega))
    have h3 := ih (fun x hx => h x (List.mem_cons_of_mem _ hx))
    have hdm : b / 16 * 16 + b % 16 = b := by omega
    rw [hexEncodeChars_cons, hexDecodeBytes, h1, h2, h3]
    dsimp only
    rw [hdm]

lemma base64Val_base64Char : ∀ n < 64, base64Val (base64Char n) = some n := by
  decide

lemma base64Char_ne_pad : ∀ n < 64, base64Char n ≠ Char.ofNat 61 := by
  decide

lemma base64EncodeChars_length (bs : List Nat) :
    (base64EncodeChars bs).length = 4 * ((bs.length + 2) / 3) := by
  induction bs using base64EncodeChars.induct with
  | case1 => rfl
  | case2 b1 => simp [base64EncodeChars]
  | case3 b1 b2 => simp [base64EncodeChars]
  | case4 b1 b2 b3 rest ih =>
    rw [base64EncodeChars]
    simp only [List.length_cons, ih]
    omega

lemma base64Decode_base64Encode (bs : List Nat) (h : ∀ b ∈ bs, b < 256) :
    base64DecodeBytes (base64EncodeChars bs) = some bs := by
  induction bs using base64EncodeChars.induct with
  | case1 => rfl
  | case2 b1 =>
    have hb1 : b1 < 256 := h b1 (List.mem_cons_self _ _)
    have h1 := base64Val_base64Char (b1 / 4) (by omega)
    have h2 := base64Val_base64Char (b1 % 4 * 16) (by omega)
    have e1 : b1 / 4 * 4 + b1 % 4 * 16 / 16 = b1 := by omega
    rw [base64EncodeChars, base64DecodeBytes]
    rw [if_pos rfl, if_pos ⟨rfl, rfl⟩, h1, h2]
    dsimp only
    rw [e1]
  | case3 b1 b2 =>
    have hb1 : b1 < 256 := h b1 (List.mem_cons_self _ _)
    have hb2 : b2 < 256 := h b2 (List.mem_cons_of_mem _ (List.mem_cons_self _ _))
    have h1 := base64Val_base64Char (b1 / 4) (by omega)
    have h2 := base64Val_base64Char (b1 % 4 * 16 + b2 / 16) (by omega)
    have h3 := base64Val_base64Char (b2 % 16 * 4) (by omega)
    have hne : base64Char (b2 % 16 * 4) ≠ Char.ofNat 61 :=
      base64Char_ne_pad _ (by omega)
    have e1 : b1 / 4 * 4 + (b1 % 4 * 16 + b2 / 16) / 16 = b1 := by omega
    have e2 : (b1 % 4 * 16 + b2 / 16) % 16 * 16 + b2 % 16 * 4 / 4 = b2 := by omega
    rw [base64EncodeChars, base64DecodeBytes]
    rw [if_neg (by exact hne), if_pos rfl, if_pos rfl, h1, h2, h3]
    dsimp only
    rw [e1, e2]
  | case4 b1 b2 b3 rest ih =>
    have hb1 : b1 < 256 := h b1 (List.mem_cons_self _ _)
    have hb2 : b2 < 256 :=
      h b2 (List.mem_cons_of_mem _ (List.mem_cons_self _ _))
    have hb3 : b3 < 256 :=
      h b3 (List.mem_cons_of_mem _ (List.mem_cons_of_mem _ (List.mem_cons_self _ _)))
    have hrest := ih (fun x hx =>
      h x (List.mem_cons_of_mem _ (List.mem_cons_of_mem _ (List.mem_cons_of_mem _ hx))))
    have h1 := base64Val_base64Char (b1 / 4) (by omega)
    have h2 := base64Val_base64Char (b1 % 4 * 16 + b2 / 16) (by omega)
    have h3 := base64Val_base64Char (b2 % 16 * 4 + b3 / 64) (by omega)
    have h4 := base64Val_base64Char (b3 % 64) (by omega)
    have hne3 : base64Char (b2 % 16 * 4 + b3 / 64) ≠ Char.ofNat 61 :=
      base64Char_ne_pad _ (by omega)
    have hne4 : base64Char (b3 % 64) ≠ Char.ofNat 61 :=
      base64Char_ne_pad _ (by omega)
    have e1 : b1 / 4 * 4 + (b1 % 4 * 16 + b2 / 16) / 16 = b1 := by omega
    have e2 : (b1 % 4 * 16 + b2 / 16) % 16 * 16 + (b2 % 16 * 4 + b3 / 64) / 4 = b2 := by
      omega
    have e3 : (b2 % 16 * 4 + b3 / 64) % 4 * 64 + b3 % 64 = b3 := by omega
    rw [base64EncodeChars, base64DecodeBytes]
    rw [if_neg (by exact hne3), if_neg (by exact hne4), h1, h2, h3, h4, hrest]
    dsimp only
    rw [e1, e2, e3]

/-- C9: parsing the string rendering of a `BlockIdentifier` returns the same
identifier, for the plain 64-character hex form (`Display`), the
`0x`-prefixed 66-character hex form, and the 44-character base64 form of the
same 32-byte identifier. -/
theorem block_identifier_from_str_round_trip (id : BlockIdentifier)
    (hlen : id.bytes.length = 32) (hbytes : ∀ b ∈ id.bytes, b < 256) :
    block_identifier_from_str (block_identifier_display id) = some id
    ∧ block_identifier_from_str (block_identifier_lower_hex_alt id) = some id
    ∧ block_identifier_from_str (block_identifier_base64 id) = some id := by
  have hdec := hexDecode_hexEncode id.bytes hbytes
  have hdec64 := base64Decode_base64Encode id.bytes hbytes
  have hhexlen : (hexEncodeChars id.bytes).length = 64 := by
    rw [hexEncodeChars_length, hlen]
  have hb64len : (base64EncodeChars id.bytes).length = 44 := by
    rw [base64EncodeChars_length, hlen]
  refine ⟨?_, ?_, ?_⟩
  · unfold block_identifier_from_str block_identifier_display
    rw [if_pos hhexlen, hdec]
    simp [hlen]
  · unfold block_identifier_from_str block_identifier_lower_hex_alt
    rw [if_neg (by simp [hhexlen]), if_pos (by simp [hhexlen])]
    simp only [List.drop_succ_cons, List.drop_zero]
    rw [hdec]
    simp [hlen]
  · unfold block_identifier_from_str block_identifier_base64
    rw [if_neg (by simp [hb64len]), if_neg (by simp [hb64len]), if_pos hb64len, hdec64]
    simp [hlen]

/-- Witness for C9 at a concrete identifier. -/
theorem block_identifier_from_str_round_trip_witness :
    block_identifier_from_str
        (block_identifier_display ⟨List.replicate 32 0⟩) = some ⟨List.replicate 32 0⟩
    ∧ block_identifier_from_str
        (block_identifier_lower_hex_alt ⟨List.replicate 32 0⟩)
      = some ⟨List.replicate 32 0⟩
    ∧ block_identifier_from_str
        (block_identifier_base64 ⟨List.replicate 32 0⟩) = some ⟨List.replicate 32 0⟩ :=
  block_identifier_from_str_round_trip ⟨List.replicate 32 0⟩ (by decide) (by decide)

/-- C10: `BlockIndex`'s `PartialOrd` (which compares only `block_seq_no`) and
`Ord` (which breaks seq-no ties by comparing the identifiers) disagree: at two
indices with equal seq-no and distinct identifiers, `partial_cmp` returns
`Some(Equal)` while `cmp` returns `Less`, violating
`partial_cmp(a, b) == Some(cmp(a, b))`. -/
theorem blockIndex_orderings_disagree :
    BlockIndex.partial_cmp ⟨1, ⟨List.replicate 32 0⟩⟩ ⟨1, ⟨1 :: List.replicate 31 0⟩⟩
        = some Ordering.eq
    ∧ BlockIndex.cmp ⟨1, ⟨List.replicate 32 0⟩⟩ ⟨1, ⟨1 :: List.replicate 31 0⟩⟩
        = Ordering.lt
    ∧ BlockIndex.partial_cmp ⟨1, ⟨List.replicate 32 0⟩⟩ ⟨1, ⟨1 :: List.replicate 31 0⟩⟩
        ≠ some (BlockIndex.cmp ⟨1, ⟨List.replicate 32 0⟩⟩ ⟨1, ⟨1 :: List.replicate 31 0⟩⟩) := by
  decide

end AckiNacki
